import Mathlib

/-!
Verification development for the outlier/inlier property-comparison engine
("delta chart") of the repository.  The TypeScript source is shallowly
embedded: JavaScript numbers are modelled as exact rationals (ℚ), JavaScript
`Map`s and plain objects as insertion-ordered association lists, and the
regular expressions of the source as explicit character-list parsers with the
same greedy semantics.  Each embedded definition keeps the name of the source
function it models.
-/

/-! ### Character / string primitives

The source manipulates JavaScript strings.  We work on `List Char` (the
`.data` of a Lean `String`) so that all string operations are plain
structural recursion.
-/

/-- Decimal digit character for `d < 10` (code point 48 + d). -/
def digitChar10 (d : Nat) : Char := Char.ofNat (48 + d)

/-- Decimal digits of `n`, most significant first, with explicit fuel (any
fuel above `n` yields the full representation; structural recursion keeps the
function kernel-reducible). -/
def natToDecAux : Nat → Nat → List Char
  | 0, _ => []
  | f + 1, n =>
    if n < 10 then [digitChar10 n]
    else natToDecAux f (n / 10) ++ [digitChar10 (n % 10)]

/-- Decimal representation of a natural number, most significant digit first.
Models `String(n)` / template interpolation of a nonnegative integer in
JavaScript. -/
def natToDec (n : Nat) : List Char := natToDecAux (n + 1) n

/-- `natToDec` packaged as a `String`. -/
def natToStr (n : Nat) : String := ⟨natToDec n⟩

/-- Numeric value of a digit string, most significant digit first.  Models
JavaScript `parseInt` on a string of decimal digits. -/
def parseDigits (ds : List Char) : Nat :=
  ds.foldl (fun a c => 10 * a + (c.toNat - 48)) 0

/-- Whether `cs` starts with the pattern `ps` (models `String.startsWith`). -/
def lStarts : List Char → List Char → Bool
  | _, [] => true
  | [], _ :: _ => false
  | c :: cs, p :: ps => c = p && lStarts cs ps

/-- Whether `cs` ends with the pattern `ps` (models `String.endsWith`). -/
def lEnds (cs ps : List Char) : Bool := lStarts cs.reverse ps.reverse

/-- Strip the pattern `ps` from the front of `cs`; `none` when `cs` does not
start with `ps`. -/
def dropPre : List Char → List Char → Option (List Char)
  | cs, [] => some cs
  | [], _ :: _ => none
  | c :: cs, p :: ps => if c = p then dropPre cs ps else none

/-- Remove leading and trailing whitespace (models `String.prototype.trim`;
JavaScript's white-space set is modelled by `Char.isWhitespace`). -/
def trimChars (cs : List Char) : List Char :=
  ((cs.dropWhile Char.isWhitespace).reverse.dropWhile Char.isWhitespace).reverse

/-- Model of `s.slice(n, -1)` in JavaScript: drop the first `n` characters and
the last one. -/
def sliceToLast (cs : List Char) (n : Nat) : List Char := (cs.drop n).dropLast

/-! ### Association lists (JavaScript `Map` / object model)

A JavaScript `Map` (and a plain object used as a dictionary) is an
insertion-ordered collection of key/value pairs.  `get` returns the value of
the first (unique) matching key; `set`/assignment updates a present key in
place and otherwise appends.
-/

/-- `Map.get` on a string-keyed map. -/
def lookupStr {β : Type} (m : List (String × β)) (k : String) : Option β :=
  match m with
  | [] => none
  | (k', v) :: t => if k' = k then some v else lookupStr t k

/-- `map.get(k) ?? d` / `map.get(k) || d`. -/
def lookup0Str {β : Type} [Inhabited β] (m : List (String × β)) (k : String) : β :=
  (lookupStr m k).getD default

/-- `Map.set` / object assignment on a string-keyed map: update in place or
append. -/
def mapSetStr {β : Type} (m : List (String × β)) (k : String) (v : β) :
    List (String × β) :=
  match m with
  | [] => [(k, v)]
  | (k', v') :: t => if k' = k then (k', v) :: t else (k', v') :: mapSetStr t k v

/-- `Set.add` on an insertion-ordered set of strings. -/
def setAddStr (s : List String) (k : String) : List String :=
  if k ∈ s then s else s ++ [k]

/-- Insertion-ordered deduplication, keeping the first occurrence: models
`new Set([...])` turned back into an array. -/
def dedupKeepFirst : List String → List String
  | [] => []
  | a :: l => a :: dedupKeepFirst (l.filter (fun x => x ≠ a))
termination_by l => l.length
decreasing_by
  exact Nat.lt_succ_of_le (List.length_filter_le _ _)

/-! ### The merged value rows and the Top-N aggregator (source:
`mergeValueStatisticsMaps`, `applyTopNAggregation`). -/

/-- One row of a merged per-property value distribution: the TypeScript shape
is a record with a value name, an outlier count, an inlier count and an
optional `isOther` flag (absent = false). -/
structure MergedRow where
  name : String
  outlierCount : ℚ
  inlierCount : ℚ
  isOther : Bool := false
deriving DecidableEq

/-- Ordering used by `applyTopNAggregation`'s comparator
`(a, b) => b.outlierCount + b.inlierCount - (a.outlierCount + a.inlierCount)`:
`a` may precede `b` when `a`'s combined count is at least `b`'s.  JavaScript's
`Array.prototype.sort` is stable, which `List.insertionSort` with this
relation models exactly. -/
def topNRel (a b : MergedRow) : Prop :=
  b.outlierCount + b.inlierCount ≤ a.outlierCount + a.inlierCount

instance : DecidableRel topNRel := fun a b =>
  inferInstanceAs (Decidable (b.outlierCount + b.inlierCount ≤ a.outlierCount + a.inlierCount))

instance : IsTotal MergedRow topNRel :=
  ⟨fun x y => le_total (y.outlierCount + y.inlierCount) (x.outlierCount + x.inlierCount)⟩

instance : IsTrans MergedRow topNRel :=
  ⟨fun _ _ _ h1 h2 => le_trans h2 h1⟩

/-- Source constant `MAX_CHART_VALUES = 6`. -/
def MAX_CHART_VALUES : Nat := 6

/-- Source `applyTopNAggregation`: return the input unchanged when within the
limit; otherwise sort a copy by combined count descending, keep the top
`MAX_CHART_VALUES` rows and collapse the rest into one `Other (N)` row whose
counts are the componentwise sums (`reduce` with initial value 0) of the
dropped rows. -/
def applyTopNAggregation (data : List MergedRow) : List MergedRow :=
  if data.length ≤ MAX_CHART_VALUES then data
  else
    let sorted := List.insertionSort topNRel data
    let top := sorted.take MAX_CHART_VALUES
    let rest := sorted.drop MAX_CHART_VALUES
    let otherOutlierCount := (rest.map (·.outlierCount)).sum
    let otherInlierCount := (rest.map (·.inlierCount)).sum
    top ++ [{ name := "Other (" ++ natToStr rest.length ++ ")",
              outlierCount := otherOutlierCount,
              inlierCount := otherInlierCount,
              isOther := true }]

/-! ### JavaScript values and the flattener (source: `flattenData`)

Scalar JavaScript values are numbers (modelled as exact rationals), strings,
booleans and null.  `flattenData` additionally stores two sentinel values: a
fresh empty object `\x7b\x7d` and a fresh empty array `[]`.  Being fresh
objects, two sentinels are never equal to each other under JavaScript's
SameValueZero (`Map` key) equality, which `svz` models by returning `false`
whenever a sentinel is involved. -/

inductive JVal where
  | num (q : ℚ)
  | str (s : String)
  | jbool (b : Bool)
  | jnull
  | emptyObjS
  | emptyArrS
deriving DecidableEq

/-- SameValueZero, the key equality of JavaScript `Map`: value equality on
primitives (a number and a string are never equal, no coercion), reference
equality on objects — and the sentinel containers stored by `flattenData` are
always freshly allocated, so a sentinel is never `Map`-equal to anything. -/
def svz : JVal → JVal → Bool
  | .num a, .num b => a = b
  | .str a, .str b => a = b
  | .jbool a, .jbool b => a = b
  | .jnull, .jnull => true
  | _, _ => false

/-- `Map.get` on a map keyed by JavaScript values (SameValueZero lookup). -/
def getV {β : Type} (m : List (JVal × β)) (k : JVal) : Option β :=
  match m with
  | [] => none
  | (k', v) :: t => if svz k' k then some v else getV t k

/-- `map.get(value) || 0` on a value-keyed count map. -/
def getV0 (m : List (JVal × Nat)) (k : JVal) : Nat := (getV m k).getD 0

/-- `Map.set` on a map keyed by JavaScript values: the first SameValueZero
match is updated in place (the stored key object is kept), otherwise the new
pair is appended. -/
def mapSetV {β : Type} (m : List (JVal × β)) (k : JVal) (v : β) : List (JVal × β) :=
  match m with
  | [] => [(k, v)]
  | (k', v') :: t => if svz k' k then (k', v) :: t else (k', v') :: mapSetV t k v

/-- A nested JavaScript value as delivered by the query layer: a scalar, an
array or an object (insertion-ordered fields). -/
inductive JData where
  | scalar (v : JVal)
  | arr (elems : List JData)
  | obj (fields : List (String × JData))

/-- A flattened record: the plain JavaScript object `result` built by
`flattenData` — an insertion-ordered map from path to value. -/
abbrev FlatRec := List (String × JVal)

mutual
/-- The `recurse` closure of the source's `flattenData`.  Scalars are stored
at the accumulated path.  Arrays recurse element-wise with `prop[i]`; the
source's `if (l == 0) result[prop] = []` line reads the *outer* `l`, which is
shadowed by the `l` declared in the `for` head and therefore still
`undefined`, so `undefined == 0` is false and an empty array stores nothing.
Objects recurse field-wise with `prop.key` (bare `key` at the root); an empty
object with a non-empty path stores the empty-object sentinel. -/
def flattenRec : JData → String → FlatRec → FlatRec
  | .scalar v, prop, result => mapSetStr result prop v
  | .arr elems, prop, result => flattenArrElems elems 0 prop result
  | .obj fields, prop, result =>
    if fields.isEmpty then
      (if prop ≠ "" then mapSetStr result prop JVal.emptyObjS else result)
    else flattenObjFields fields prop result
  termination_by d _ _ => sizeOf d
  decreasing_by all_goals simp_wf

/-- The array loop of `flattenData.recurse`: element `i` flattens under the
path `prop[i]`. -/
def flattenArrElems : List JData → Nat → String → FlatRec → FlatRec
  | [], _, _, result => result
  | x :: xs, i, prop, result =>
    flattenArrElems xs (i + 1) prop
      (flattenRec x (prop ++ "[" ++ natToStr i ++ "]") result)
  termination_by xs _ _ _ => sizeOf xs
  decreasing_by all_goals (simp_wf <;> omega)

/-- The `for (const p in cur)` loop of `flattenData.recurse`: field `p`
flattens under `prop.p`, or bare `p` when the path so far is empty. -/
def flattenObjFields : List (String × JData) → String → FlatRec → FlatRec
  | [], _, result => result
  | (p, v) :: fs, prop, result =>
    flattenObjFields fs prop
      (flattenRec v (if prop = "" then p else prop ++ "." ++ p) result)
  termination_by fs _ _ => sizeOf fs
  decreasing_by all_goals (simp_wf <;> omega)
end

/-- Source `flattenData`: flatten a nested record starting from the empty
path and an empty result object. -/
def flattenData (data : JData) : FlatRec := flattenRec data "" []

/-! ### The statistics aggregator (source: `getPropertyStatistics`) -/

/-- Source constant `MIN_PROPERTY_OCCURENCES = 5`. -/
def MIN_PROPERTY_OCCURENCES : Nat := 5

/-- The body of the first `forEach` of `getPropertyStatistics`, for one
entry: increment `propertyOccurences[key]`, and add `key` to
`commonProperties` the moment `count + 1` reaches the threshold. -/
def statsPass1Step (st : List (String × Nat) × List String) (kv : String × JVal) :
    List (String × Nat) × List String :=
  let count := (lookupStr st.1 kv.1).getD 0
  (mapSetStr st.1 kv.1 (count + 1),
   if count + 1 ≥ MIN_PROPERTY_OCCURENCES then setAddStr st.2 kv.1 else st.2)

/-- The first `forEach` pass of `getPropertyStatistics`: walk every entry of
every flattened record with `statsPass1Step`. -/
def statsPass1 (flattened : List FlatRec) : List (String × Nat) × List String :=
  flattened.foldl (fun st item => item.foldl statsPass1Step st) ([], [])

/-- The body of the second `forEach` of `getPropertyStatistics`, for one
entry: when the key is a common property, bump the key's value-occurrence
bucket (creating the inner map on first use; `valuesMap.get(value) || 0`
then `valuesMap.set(value, valueCount + 1)`). -/
def valueOccStep (commonProperties : List String)
    (vo : List (String × List (JVal × Nat))) (kv : String × JVal) :
    List (String × List (JVal × Nat)) :=
  if kv.1 ∈ commonProperties then
    let valuesMap := (lookupStr vo kv.1).getD []
    mapSetStr vo kv.1 (mapSetV valuesMap kv.2 (getV0 valuesMap kv.2 + 1))
  else vo

/-- The second `forEach` pass of `getPropertyStatistics`: walk every entry of
every flattened record with `valueOccStep`. -/
def valueOccurencesOf (flattened : List FlatRec) (commonProperties : List String) :
    List (String × List (JVal × Nat)) :=
  flattened.foldl (fun vo item => item.foldl (valueOccStep commonProperties) vo) []

/-- The final `forEach` of `getPropertyStatistics`: per property, map each
value count to `(valueCount / propertyOccurences[property]) * 100`.  For
every key present in `valueOccurences` the divisor is positive (the key is a
common property), so rational division faithfully models the JavaScript
division there. -/
def percentageOccurencesOf (valueOccurences : List (String × List (JVal × Nat)))
    (propertyOccurences : List (String × Nat)) : List (String × List (JVal × ℚ)) :=
  valueOccurences.map fun p =>
    (p.1, p.2.map fun q =>
      (q.1, ((q.2 : ℚ) / (((lookupStr propertyOccurences p.1).getD 0 : Nat) : ℚ)) * 100))

/-- The record returned by `getPropertyStatistics`. -/
structure PropertyStatistics where
  percentageOccurences : List (String × List (JVal × ℚ))
  propertyOccurences : List (String × Nat)

/-- Source `getPropertyStatistics`: flatten every record, count property
occurrences (first pass), accumulate value occurrences for common properties
(second pass), then convert counts to percentages. -/
def getPropertyStatistics (data : List JData) : PropertyStatistics :=
  let flattened := data.map flattenData
  let st := statsPass1 flattened
  let valueOccurences := valueOccurencesOf flattened st.2
  ⟨percentageOccurencesOf valueOccurences st.1, st.1⟩

/-! ### Merging and ranking (source: `mergeValueStatisticsMaps`, the
`sortedProperties` computation of `DBDeltaChart`, `isHighCardinality`).

Following the declared TypeScript types, the per-property value maps consumed
here are string-keyed (`Map<string, number>`).  `allValues.sort()` sorts by
JavaScript's default string order, modelled by Lean's lexicographic string
order. -/

/-- Source `mergeValueStatisticsMaps`: the union of both key sets (a `Set`
built from outlier keys then inlier keys, keeping first occurrences), sorted,
each key paired with its count in each group (`get(value) || 0`). -/
def mergeValueStatisticsMaps (outlierValues inlierValues : List (String × ℚ)) :
    List MergedRow :=
  let allValues := List.insertionSort (· ≤ ·)
    (dedupKeepFirst (outlierValues.map (·.1) ++ inlierValues.map (·.1)))
  allValues.map fun value =>
    { name := value,
      outlierCount := (lookupStr outlierValues value).getD 0,
      inlierCount := (lookupStr inlierValues value).getD 0 }

/-- The per-key body of the `sortedProperties` computation in `DBDeltaChart`:
merge the key's two percentage maps (`get(key) ?? new Map()`) and take the
running maximum of `Math.abs(outlierCount - inlierCount)` starting from 0. -/
def maxValueDelta
    (outlierValueOccurences inlierValueOccurences : List (String × List (String × ℚ)))
    (key : String) : ℚ :=
  let inlierCount := (lookupStr inlierValueOccurences key).getD []
  let outlierCount := (lookupStr outlierValueOccurences key).getD []
  let mergedArray := mergeValueStatisticsMaps outlierCount inlierCount
  mergedArray.foldl
    (fun maxV item =>
      if |item.outlierCount - item.inlierCount| > maxV
      then |item.outlierCount - item.inlierCount| else maxV)
    0

/-- Comparator `(a, b) => b[1] - a[1]` of `sortedProperties`: a key/delta pair
may precede another when its delta is at least the other's. -/
def deltaRel (a b : String × ℚ) : Prop := b.2 ≤ a.2

instance : DecidableRel deltaRel := fun a b => inferInstanceAs (Decidable (b.2 ≤ a.2))

instance : IsTotal (String × ℚ) deltaRel := ⟨fun x y => le_total y.2 x.2⟩

instance : IsTrans (String × ℚ) deltaRel := ⟨fun _ _ _ h1 h2 => le_trans h2 h1⟩

/-- The `sortedProperties` computation of `DBDeltaChart`: candidate keys are
the outlier percentage map's keys, falling back to the inlier map's keys when
there are none; each key is paired with its `maxValueDelta`, the pairs are
sorted by delta descending (stable sort), and the keys are extracted. -/
def sortedProperties
    (outlierValueOccurences inlierValueOccurences : List (String × List (String × ℚ))) :
    List String :=
  let uniqueKeys := dedupKeepFirst (outlierValueOccurences.map (·.1))
  let uniqueKeys :=
    if uniqueKeys.isEmpty then dedupKeepFirst (inlierValueOccurences.map (·.1))
    else uniqueKeys
  ((uniqueKeys.map fun key =>
      (key, maxValueDelta outlierValueOccurences inlierValueOccurences key)).insertionSort
    deltaRel).map (·.1)

/-- Source `isHighCardinality`: never high-cardinality when the combined
sample size is at most 20; otherwise compare the effective uniqueness (the
minimum of the groups' distinct-value ratios, or the single defined one; the
source's final `else` returns false when neither group has data) with 0.9. -/
def isHighCardinality (key : String)
    (outlierValueOccurences inlierValueOccurences : List (String × List (String × ℚ)))
    (outlierPropertyOccurences inlierPropertyOccurences : List (String × Nat)) : Bool :=
  let outlierTotal := (lookupStr outlierPropertyOccurences key).getD 0
  let inlierTotal := (lookupStr inlierPropertyOccurences key).getD 0
  let combinedSampleSize := outlierTotal + inlierTotal
  if combinedSampleSize ≤ 20 then false
  else
    let outlierUniqueValues := ((lookupStr outlierValueOccurences key).getD []).length
    let inlierUniqueValues := ((lookupStr inlierValueOccurences key).getD []).length
    let outlierUniqueness : Option ℚ :=
      if outlierTotal > 0 then some ((outlierUniqueValues : ℚ) / (outlierTotal : ℚ)) else none
    let inlierUniqueness : Option ℚ :=
      if inlierTotal > 0 then some ((inlierUniqueValues : ℚ) / (inlierTotal : ℚ)) else none
    let effectiveUniqueness : Option ℚ :=
      match outlierUniqueness, inlierUniqueness with
      | some oU, some iU => some (min oU iU)
      | some oU, none => some oU
      | none, some iU => some iU
      | none, none => none
    match effectiveUniqueness with
    | none => false
    | some u => decide (u > 9 / 10)

/-! ### Column metadata and the structural classifiers (source:
`stripTypeWrappers`, `isIdField`, `isTimestampArrayField`, `isDenylisted`,
`flattenedKeyToSqlExpression`). -/

/-- A column of the query result's metadata (spec: ColumnDescriptor). -/
structure ColumnDescriptor where
  name : String
  type : String
deriving DecidableEq

/-- The `while (changed)` loop of `stripTypeWrappers`, with explicit fuel so
the function stays structurally recursive (each iteration shortens the text
by at least 16 characters, so `length + 1` fuel never runs out). -/
def stripLoopF : Nat → List Char → List Char
  | 0, t => t
  | f + 1, t =>
    if lStarts t "LowCardinality(".data && lEnds t [')'] then
      stripLoopF f (trimChars (sliceToLast t 15))
    else if lStarts t "Nullable(".data && lEnds t [')'] then
      stripLoopF f (trimChars (sliceToLast t 9))
    else t

/-- Source `stripTypeWrappers`: trim, then repeatedly strip a
`LowCardinality(...)` or `Nullable(...)` wrapper (trimming after each strip)
until neither applies. -/
def stripTypeWrappers (type : String) : String :=
  ⟨stripLoopF (type.data.length + 1) (trimChars type.data)⟩

/-- The regular expression `/^([^\[]+)\[(\d+)\]$/` of `isIdField` and
`isTimestampArrayField`: a nonempty bracket-free base, then `[`, one or more
digits, `]`, end of string.  Returns the base (capture group 1). -/
def matchIdxSuffix (cs : List Char) : Option (List Char) :=
  let a := cs.takeWhile (fun c => c ≠ '[')
  let r := cs.dropWhile (fun c => c ≠ '[')
  match r with
  | [] => none
  | _ :: rest =>
    let ds := rest.takeWhile Char.isDigit
    let r2 := rest.dropWhile Char.isDigit
    if a ≠ [] && ds ≠ [] && r2 = [']'] then some a else none

/-- Base-column-name extraction shared by `isIdField` and
`isTimestampArrayField`: `ColName[N]` gives `ColName`, a bracket-free key
gives the key itself, any other bracketed key gives nothing. -/
def baseColName (key : String) : Option String :=
  match matchIdxSuffix key.data with
  | some a => some ⟨a⟩
  | none => if key.data.contains '[' then none else some key

/-- Source `isIdField`: the base column name must end in `Id` or `ID`
(`/(Id|ID)$/`), and the column found by that name must have base type
`String`, or `Array(...)` whose inner type unwraps to `String`. -/
def isIdField (key : String) (columnMeta : List ColumnDescriptor) : Bool :=
  match baseColName key with
  | none => false
  | some colName =>
    if !(lEnds colName.data "Id".data || lEnds colName.data "ID".data) then false
    else
      match columnMeta.find? (fun c => c.name == colName) with
      | none => false
      | some col =>
        let baseType := stripTypeWrappers col.type
        if baseType = "String" then true
        else if lStarts baseType.data "Array(".data then
          stripTypeWrappers ⟨sliceToLast baseType.data 6⟩ = "String"
        else false

/-- Source `isTimestampArrayField`: same base-name extraction; the column
must unwrap to `Array(...)` whose inner type unwraps to a `DateTime64(`
type. -/
def isTimestampArrayField (key : String) (columnMeta : List ColumnDescriptor) : Bool :=
  match baseColName key with
  | none => false
  | some colName =>
    match columnMeta.find? (fun c => c.name == colName) with
    | none => false
    | some col =>
      let baseType := stripTypeWrappers col.type
      if !(lStarts baseType.data "Array(".data) then false
      else
        let innerType := stripTypeWrappers ⟨sliceToLast baseType.data 6⟩
        lStarts innerType.data "DateTime64(".data

/-- Source `isDenylisted`: ID fields and per-index timestamp array
elements. -/
def isDenylisted (key : String) (columnMeta : List ColumnDescriptor) : Bool :=
  isIdField key columnMeta || isTimestampArrayField key columnMeta

/-- Line-terminator class: the characters that JavaScript's `.` (without the
`s` flag) does not match. -/
def nlClass (c : Char) : Bool :=
  c = '\n' || c = '\r' || c.toNat = 8232 || c.toNat = 8233

/-- The regular expression
`^escapeRegExp(col.name)\[(\d+)\]\.(.+)$` of `flattenedKeyToSqlExpression`:
the literal column name, `[`, one or more digits, `].`, then a nonempty
remainder of non-line-terminator characters.  Returns the digit string and
the remainder (capture groups 1 and 2). -/
def matchArrMapPath (name : List Char) (key : List Char) :
    Option (List Char × List Char) :=
  match dropPre key (name ++ ['[']) with
  | none => none
  | some rest =>
    let ds := rest.takeWhile Char.isDigit
    let r2 := rest.dropWhile Char.isDigit
    match r2 with
    | ']' :: '.' :: restKey =>
      if ds ≠ [] && restKey ≠ [] && restKey.all (fun c => !nlClass c) then
        some (ds, restKey)
      else none
    | _ => none

/-- One iteration of the column loop of `flattenedKeyToSqlExpression`: a map
column whose dotted name prefixes the key rewrites to bracket notation; an
array-of-map column whose indexed pattern matches rewrites with the index
incremented (`parseInt(match[1]) + 1`); otherwise the loop continues. -/
def tryColumn (key : String) (col : ColumnDescriptor) : Option String :=
  let baseType := stripTypeWrappers col.type
  if lStarts baseType.data "Map(".data then
    if lStarts key.data (col.name.data ++ ['.']) then
      some (col.name ++ "['" ++ (⟨key.data.drop (col.name.data.length + 1)⟩ : String) ++ "']")
    else none
  else if lStarts baseType.data "Array(".data then
    let innerType := stripTypeWrappers ⟨sliceToLast baseType.data 6⟩
    if lStarts innerType.data "Map(".data then
      match matchArrMapPath col.name.data key.data with
      | some (ds, restKey) =>
        some (col.name ++ "[" ++ natToStr (parseDigits ds + 1) ++ "]['" ++
          (⟨restKey⟩ : String) ++ "']")
      | none => none
    else none
  else none

/-- Source `flattenedKeyToSqlExpression`: try each column in metadata order;
the first match returns; when no column matches, the key is returned
unchanged. -/
def flattenedKeyToSqlExpression (key : String) : List ColumnDescriptor → String
  | [] => key
  | col :: rest =>
    match tryColumn key col with
    | some s => s
    | none => flattenedKeyToSqlExpression key rest

/-! ### The bounded numeric expression evaluator.

`computeYValue` is exported by the delta-chart module and exercised by the
repository's unit tests, but its defining file is not among the provided
sources; the definitions below are therefore modelled from the spec. -/

/-- The two operator characters the evaluator accepts. -/
def isOpChar (c : Char) : Bool := c = '/' || c = '*'

/-- Characters allowed in a column reference (letters, digits, underscore,
dot); parentheses, whitespace and operators are excluded, so `count()` is
not a column reference. -/
def isIdentChar (c : Char) : Bool := c.isAlpha || c.isDigit || c = '_' || c = '.'

/-- Exponent application for a numeric literal: the exponent digits must be
nonempty and exhaust the input. -/
def applyExp (mant : ℚ) (neg : Bool) (ds : List Char) : Option ℚ :=
  if ds ≠ [] && ds.all Char.isDigit then
    some (if neg then mant / (10 : ℚ) ^ parseDigits ds
          else mant * (10 : ℚ) ^ parseDigits ds)
  else none

/-- Optional scientific-notation suffix of a numeric literal. -/
def parseExpPart (mant : ℚ) : List Char → Option ℚ
  | [] => some mant
  | 'e' :: r =>
    (match r with
     | '+' :: ds => applyExp mant false ds
     | '-' :: ds => applyExp mant true ds
     | ds => applyExp mant false ds)
  | 'E' :: r =>
    (match r with
     | '+' :: ds => applyExp mant false ds
     | '-' :: ds => applyExp mant true ds
     | ds => applyExp mant false ds)
  | _ => none

/-- Modelled from the spec: a decimal or scientific-notation numeric literal
(`1000000`, `0.001`, `1e6`), evaluated exactly. -/
def parseNumLit (cs : List Char) : Option ℚ :=
  let ds1 := cs.takeWhile Char.isDigit
  let r1 := cs.dropWhile Char.isDigit
  if ds1 = [] then none
  else
    match r1 with
    | '.' :: r2 =>
      let ds2 := r2.takeWhile Char.isDigit
      let r3 := r2.dropWhile Char.isDigit
      if ds2 = [] then none
      else parseExpPart
        ((parseDigits ds1 : ℚ) + (parseDigits ds2 : ℚ) / (10 : ℚ) ^ ds2.length) r3
    | r => parseExpPart (parseDigits ds1 : ℚ) r

/-- Modelled from the spec: coercion of a row value to a number — a number
is itself; a numeric-string-encoded value must parse as a plain number;
anything else fails. -/
def coerceNum : JVal → Option ℚ
  | .num q => some q
  | .str s => parseNumLit (trimChars s.data)
  | _ => none

/-- Modelled from the spec: a bare column reference `ColName` or a
parenthesized one `(ColName)` (whitespace tolerated), looked up in the row
and coerced to a number; anything else fails. -/
def evalColRef (cs : List Char) (row : List (String × JVal)) : Option ℚ :=
  let t := trimChars cs
  let name? : Option (List Char) :=
    if lStarts t ['('] && lEnds t [')'] then
      let inner := trimChars (t.drop 1).dropLast
      if inner ≠ [] && inner.all isIdentChar then some inner else none
    else if t ≠ [] && t.all isIdentChar then some t else none
  match name? with
  | none => none
  | some nm =>
    match lookupStr row ⟨nm⟩ with
    | none => none
    | some v => coerceNum v

/-- Modelled from the spec: `computeYValue` — the definition of this exported
function is not among the provided source files (only its unit tests and its
caller are), so it is reconstructed from spec §4.8.  A single `/` or `*`
splits the expression into a column reference and a numeric literal; with no
operator the whole expression must be a column reference; more than one
operator, an unparseable side, a missing column or a zero divisor give
`null` (the function is total: it never throws). -/
def computeYValue (expr : String) (row : List (String × JVal)) : Option ℚ :=
  let cs := expr.data
  match cs.filter isOpChar with
  | [] => evalColRef cs row
  | [op] =>
    let lhs := cs.takeWhile (fun c => !isOpChar c)
    let rhs := (cs.dropWhile (fun c => !isOpChar c)).drop 1
    match evalColRef lhs row, parseNumLit (trimChars rhs) with
    | some v, some n =>
      if op = '/' then (if n = 0 then none else some (v / n)) else some (v * n)
    | _, _ => none
  | _ => none

/-! ### Spec-side definitions

These follow the wording of the specification, for comparison with the
definitions above, which are translated from the source. -/

/-- Spec: uniqueness of a group is distinct-value-count divided by the
occurrence total, defined only when the occurrence total is positive. -/
def uniquenessQ (uniqueValues total : Nat) : Option ℚ :=
  if 0 < total then some ((uniqueValues : ℚ) / (total : ℚ)) else none

/-- Spec: the effective uniqueness is the minimum of the two group
uniquenesses when both are defined, the single defined one otherwise, and
undefined when neither is. -/
def effectiveUniquenessSpec : Option ℚ → Option ℚ → Option ℚ
  | some a, some b => some (min a b)
  | some a, none => some a
  | none, some b => some b
  | none, none => none

/-- Spec: for one property, the maximum over the union of the two groups'
observed values of the absolute difference between the value's outlier and
inlier percentages, where a percentage missing from a group counts as 0 and
a property with no values in either group scores 0. -/
def specMaxDelta (ov iv : List (String × ℚ)) : ℚ :=
  ((dedupKeepFirst (ov.map (·.1) ++ iv.map (·.1))).map
    (fun v => |(lookupStr ov v).getD 0 - (lookupStr iv v).getD 0|)).foldr max 0

/-- Spec: a property's occurrence count within a group — the number of
entries carrying that property across the group's flattened records. -/
def occCount (flattened : List FlatRec) (p : String) : Nat :=
  (flattened.flatten).countP (fun kv => kv.1 = p)

/-- Spec: the stream of values observed for one property across all of a
group's flattened records, in record order. -/
def pvals (flattened : List FlatRec) (p : String) : List JVal :=
  ((flattened.flatten).filter (fun kv => kv.1 = p)).map (·.2)

/-- Spec: accumulate a stream of values into occurrence buckets under
SameValueZero key equality. -/
def bucketFold (init : List (JVal × Nat)) (vs : List JVal) : List (JVal × Nat) :=
  vs.foldl (fun m v => mapSetV m v (getV0 m v + 1)) init

/-- Spec: the value-occurrence table of one property accumulated over all of
the group's records. -/
def bucketsOfProp (flattened : List FlatRec) (p : String) : List (JVal × Nat) :=
  bucketFold [] (pvals flattened p)

example : natToStr 12 = "12" := rfl

/-- Spec: a path is an identifier field when its base column name — the path
after stripping a single trailing `[N]` index (nonempty bracket-free base,
nonempty digit string), or the bare path when it contains no bracket — ends
in `Id` or `ID`, and the column found under that name has a type that
unwraps to `String`, or to an `Array(...)` whose element text itself unwraps
to `String`. -/
def IsIdentifierField (key : String) (columnMeta : List ColumnDescriptor) : Prop :=
  ∃ colName : String,
    ((∃ ds : List Char, key.data = colName.data ++ '[' :: (ds ++ [']']) ∧
        colName.data ≠ [] ∧ '[' ∉ colName.data ∧ ds ≠ [] ∧ ∀ c ∈ ds, c.isDigit = true) ∨
      ('[' ∉ key.data ∧ colName = key)) ∧
    ((∃ t : List Char, colName.data = t ++ "Id".data) ∨
      (∃ t : List Char, colName.data = t ++ "ID".data)) ∧
    (∃ col, columnMeta.find? (fun c => c.name == colName) = some col ∧
      (stripTypeWrappers col.type = "String" ∨
        (lStarts (stripTypeWrappers col.type).data "Array(".data = true ∧
          stripTypeWrappers ⟨sliceToLast (stripTypeWrappers col.type).data 6⟩ = "String")))

/-! ### Helper lemmas -/

theorem lStarts_iff {cs ps : List Char} : lStarts cs ps = true ↔ ∃ t, cs = ps ++ t := by
  induction ps generalizing cs with
  | nil => simp [lStarts]
  | cons p ps ih =>
    cases cs with
    | nil => simp [lStarts]
    | cons c cs' =>
      simp only [lStarts, Bool.and_eq_true, decide_eq_true_eq, ih]
      constructor
      · rintro ⟨rfl, t, rfl⟩
        exact ⟨t, rfl⟩
      · rintro ⟨t, h⟩
        rw [List.cons_append] at h
        injection h with h1 h2
        exact ⟨h1, t, h2⟩

theorem lEnds_iff {cs ps : List Char} : lEnds cs ps = true ↔ ∃ t, cs = t ++ ps := by
  rw [lEnds, lStarts_iff]
  constructor
  · rintro ⟨t, h⟩
    refine ⟨t.reverse, ?_⟩
    have := congrArg List.reverse h
    simpa using this
  · rintro ⟨t, rfl⟩
    exact ⟨t.reverse, by simp⟩

theorem dropPre_eq_some {cs ps r : List Char} : dropPre cs ps = some r ↔ cs = ps ++ r := by
  induction ps generalizing cs with
  | nil => simp [dropPre, eq_comm]
  | cons p ps ih =>
    cases cs with
    | nil => simp [dropPre]
    | cons c cs' =>
      simp only [dropPre]
      by_cases h : c = p
      · subst h
        rw [if_pos rfl, ih, List.cons_append]
        constructor
        · intro h2; rw [h2]
        · intro h2; injection h2
      · rw [if_neg h]
        constructor
        · intro h2; cases h2
        · intro h2
          rw [List.cons_append] at h2
          injection h2 with h3 _
          exact absurd h3 h

theorem takeWhile_dropWhile_split {α : Type} (p : α → Bool) (a : List α) (b : α)
    (t : List α) (ha : ∀ x ∈ a, p x = true) (hb : p b = false) :
    (a ++ b :: t).takeWhile p = a ∧ (a ++ b :: t).dropWhile p = b :: t := by
  induction a with
  | nil => simp [List.takeWhile_cons, List.dropWhile_cons, hb]
  | cons x s ih =>
    have hx := ha x (List.mem_cons_self x s)
    have ihs := ih (fun y hy => ha y (List.mem_cons_of_mem x hy))
    simp only [List.cons_append, List.takeWhile_cons, List.dropWhile_cons, hx, if_true]
    exact ⟨by rw [ihs.1], ihs.2⟩

theorem takeWhile_all {α : Type} (p : α → Bool) (l : List α) :
    ∀ x ∈ l.takeWhile p, p x = true := by
  induction l with
  | nil => simp
  | cons y t ih =>
    intro x hx
    rw [List.takeWhile_cons] at hx
    by_cases hy : p y
    · rw [if_pos hy] at hx
      rcases List.mem_cons.mp hx with rfl | hx'
      · exact hy
      · exact ih x hx'
    · rw [if_neg hy] at hx
      cases hx

theorem dropWhile_head_false {α : Type} (p : α → Bool) (l : List α) (b : α)
    (t : List α) (h : l.dropWhile p = b :: t) : p b = false := by
  induction l with
  | nil => cases h
  | cons x s ih =>
    rw [List.dropWhile_cons] at h
    by_cases hx : p x
    · rw [if_pos hx] at h
      exact ih h
    · rw [if_neg hx] at h
      injection h with h1 _
      subst h1
      simpa using hx

/-- The bracket-index regular expression matches exactly the strings of the
form `base[digits]` with a nonempty bracket-free base and nonempty digit
string. -/
theorem matchIdxSuffix_eq_some {cs a : List Char} :
    matchIdxSuffix cs = some a ↔
      ∃ ds, cs = a ++ '[' :: (ds ++ [']']) ∧ a ≠ [] ∧ '[' ∉ a ∧ ds ≠ [] ∧
        ∀ c ∈ ds, c.isDigit = true := by
  constructor
  · intro h
    rw [matchIdxSuffix] at h
    rcases hr : cs.dropWhile (fun c => c ≠ '[') with _ | ⟨b, rest⟩
    · rw [hr] at h; cases h
    · rw [hr] at h
      simp only at h
      split at h
      next hcond =>
        injection h with h'
        subst h'
        rw [Bool.and_eq_true, Bool.and_eq_true] at hcond
        obtain ⟨⟨hane, hdsne⟩, hr2⟩ := hcond
        have hb := dropWhile_head_false (fun c => decide (c ≠ '[')) cs b rest hr
        have hbeq : b = '[' := by simpa using hb
        subst hbeq
        have hsplit : cs.takeWhile (fun c => decide (c ≠ '[')) ++ '[' :: rest = cs := by
          rw [← hr]; exact List.takeWhile_append_dropWhile _ _
        have hsplit2 : rest.takeWhile Char.isDigit ++ rest.dropWhile Char.isDigit = rest :=
          List.takeWhile_append_dropWhile _ _
        have hdrop : rest.dropWhile Char.isDigit = [']'] := by simpa using hr2
        have hrest : rest = rest.takeWhile Char.isDigit ++ [']'] := by
          rw [← hdrop]; exact hsplit2.symm
        refine ⟨rest.takeWhile Char.isDigit, ?_, by simpa using hane, ?_,
          by simpa using hdsne, ?_⟩
        · rw [← hrest]
          exact hsplit.symm
        · intro hmem
          have := takeWhile_all (fun c => decide (c ≠ '[')) cs '[' hmem
          simp at this
        · exact fun c hc => takeWhile_all Char.isDigit rest c hc
      next => cases h
  · rintro ⟨ds, rfl, hane, hnotin, hdsne, hds⟩
    have h1 := takeWhile_dropWhile_split (fun c => decide (c ≠ '[')) a '[' (ds ++ [']'])
      (fun x hx => by
        simp only [decide_eq_true_eq]
        intro he
        exact hnotin (he ▸ hx))
      (by simp)
    have h2 := takeWhile_dropWhile_split Char.isDigit ds ']' [] hds (by decide)
    rw [matchIdxSuffix, h1.2]
    simp only [h1.1, h2.1, h2.2]
    rw [if_pos]
    simp only [Bool.and_eq_true, decide_eq_true_eq]
    exact ⟨⟨hane, hdsne⟩, trivial⟩

theorem mem_dedupKeepFirst {a : String} {l : List String} :
    a ∈ dedupKeepFirst l ↔ a ∈ l := by
  induction l using dedupKeepFirst.induct with
  | case1 => simp [dedupKeepFirst]
  | case2 x t ih =>
    rw [dedupKeepFirst]
    by_cases hx : a = x
    · simp [hx]
    · simp only [List.mem_cons, hx, false_or, ih, List.mem_filter]
      simp [hx]

theorem nodup_dedupKeepFirst (l : List String) : (dedupKeepFirst l).Nodup := by
  induction l using dedupKeepFirst.induct with
  | case1 => simp [dedupKeepFirst]
  | case2 x t ih =>
    rw [dedupKeepFirst]
    refine List.Nodup.cons ?_ ih
    intro hmem
    rcases List.mem_filter.mp (mem_dedupKeepFirst.mp hmem) with ⟨-, hne⟩
    simp at hne

theorem dedupKeepFirst_eq_nil {l : List String} : dedupKeepFirst l = [] ↔ l = [] := by
  cases l with
  | nil => simp [dedupKeepFirst]
  | cons x t => rw [dedupKeepFirst]; simp

theorem ifmax_eq_max (m x : ℚ) : (if x > m then x else m) = max m x := by
  rcases le_or_lt x m with h | h
  · rw [if_neg (not_lt.mpr h), max_eq_left h]
  · rw [if_pos h, max_eq_right h.le]

theorem foldr_max_init (t : List ℚ) (m x : ℚ) :
    t.foldr max (max m x) = max x (t.foldr max m) := by
  induction t with
  | nil => exact max_comm m x
  | cons y t ih => simp only [List.foldr_cons, ih, max_left_comm]

theorem foldl_max_eq_foldr (l : List ℚ) (m : ℚ) : l.foldl max m = l.foldr max m := by
  induction l generalizing m with
  | nil => rfl
  | cons x t ih => simp only [List.foldl_cons, List.foldr_cons, ih, foldr_max_init]

theorem foldr_max_perm {l₁ l₂ : List ℚ} (p : l₁.Perm l₂) (m : ℚ) :
    l₁.foldr max m = l₂.foldr max m := by
  induction p with
  | nil => rfl
  | cons x _ ih => simp only [List.foldr_cons, ih]
  | swap x y t => simp only [List.foldr_cons, max_left_comm]
  | trans _ _ ih₁ ih₂ => rw [ih₁, ih₂]

/-- The running-maximum loop of `maxValueDelta` computes the spec-side
maximum over the union of both key sets. -/
theorem mergedFold_eq_specMaxDelta (ov iv : List (String × ℚ)) :
    (mergeValueStatisticsMaps ov iv).foldl
      (fun maxV item =>
        if |item.outlierCount - item.inlierCount| > maxV
        then |item.outlierCount - item.inlierCount| else maxV)
      0 = specMaxDelta ov iv := by
  rw [mergeValueStatisticsMaps]
  rw [List.foldl_map]
  have hstep : ∀ (m : ℚ) (v : String),
      (fun (maxV : ℚ) (item : MergedRow) =>
        if |item.outlierCount - item.inlierCount| > maxV
        then |item.outlierCount - item.inlierCount| else maxV) m
        ({ name := v, outlierCount := (lookupStr ov v).getD 0,
           inlierCount := (lookupStr iv v).getD 0 } : MergedRow) =
      max m |(lookupStr ov v).getD 0 - (lookupStr iv v).getD 0| := by
    intro m v
    exact ifmax_eq_max m _
  calc (List.insertionSort (· ≤ ·)
          (dedupKeepFirst (ov.map (·.1) ++ iv.map (·.1)))).foldl
        (fun m v => (fun (maxV : ℚ) (item : MergedRow) =>
          if |item.outlierCount - item.inlierCount| > maxV
          then |item.outlierCount - item.inlierCount| else maxV) m
          { name := v, outlierCount := (lookupStr ov v).getD 0,
            inlierCount := (lookupStr iv v).getD 0 }) 0
      = (List.insertionSort (· ≤ ·)
          (dedupKeepFirst (ov.map (·.1) ++ iv.map (·.1)))).foldl
        (fun m v => max m |(lookupStr ov v).getD 0 - (lookupStr iv v).getD 0|) 0 := by
        congr 1
        funext m v
        exact hstep m v
    _ = ((List.insertionSort (· ≤ ·)
          (dedupKeepFirst (ov.map (·.1) ++ iv.map (·.1)))).map
          (fun v => |(lookupStr ov v).getD 0 - (lookupStr iv v).getD 0|)).foldl max 0 := by
        rw [List.foldl_map]
    _ = ((List.insertionSort (· ≤ ·)
          (dedupKeepFirst (ov.map (·.1) ++ iv.map (·.1)))).map
          (fun v => |(lookupStr ov v).getD 0 - (lookupStr iv v).getD 0|)).foldr max 0 := by
        rw [foldl_max_eq_foldr]
    _ = specMaxDelta ov iv := by
        refine foldr_max_perm ?_ 0
        exact (List.perm_insertionSort _ _).map _

/-- `maxValueDelta` agrees with the spec-side maximum delta of the key's two
percentage maps. -/
theorem maxValueDelta_eq_specMaxDelta
    (ovo ivo : List (String × List (String × ℚ))) (k : String) :
    maxValueDelta ovo ivo k =
      specMaxDelta ((lookupStr ovo k).getD []) ((lookupStr ivo k).getD []) := by
  rw [maxValueDelta]
  exact mergedFold_eq_specMaxDelta _ _

theorem containsChar_iff {l : List Char} {a : Char} : l.contains a = true ↔ a ∈ l :=
  List.elem_iff

/-- `baseColName` succeeds exactly on a single trailing bracket index
(returning the base) or on a bracket-free path (returning it whole). -/
theorem baseColName_eq_some {key colName : String} :
    baseColName key = some colName ↔
      ((∃ ds, key.data = colName.data ++ '[' :: (ds ++ [']']) ∧ colName.data ≠ [] ∧
        '[' ∉ colName.data ∧ ds ≠ [] ∧ ∀ c ∈ ds, c.isDigit = true) ∨
       ('[' ∉ key.data ∧ colName = key)) := by
  rw [baseColName]
  rcases hm : matchIdxSuffix key.data with _ | a
  · by_cases hc : key.data.contains '[' = true
    · rw [if_pos hc]
      constructor
      · intro h; cases h
      · rintro (⟨ds, hkey, hne, hnotin, hdsne, hds⟩ | ⟨hnotin, rfl⟩)
        · exfalso
          have h2 : matchIdxSuffix key.data = some colName.data :=
            matchIdxSuffix_eq_some.mpr ⟨ds, hkey, hne, hnotin, hdsne, hds⟩
          rw [hm] at h2; cases h2
        · exact absurd (containsChar_iff.mp hc) hnotin
    · rw [if_neg hc]
      constructor
      · intro h
        injection h with h'
        refine Or.inr ⟨fun hmem => hc (containsChar_iff.mpr hmem), h'.symm⟩
      · rintro (⟨ds, hkey, hne, hnotin, hdsne, hds⟩ | ⟨hnotin, rfl⟩)
        · exfalso
          have h2 : matchIdxSuffix key.data = some colName.data :=
            matchIdxSuffix_eq_some.mpr ⟨ds, hkey, hne, hnotin, hdsne, hds⟩
          rw [hm] at h2; cases h2
        · rfl
  · obtain ⟨ds, hkey, hne, hnotin, hdsne, hds⟩ := matchIdxSuffix_eq_some.mp hm
    constructor
    · intro h
      injection h with h'
      refine Or.inl ⟨ds, ?_, ?_, ?_, hdsne, hds⟩
      · rw [← h']; exact hkey
      · rw [← h']; exact hne
      · rw [← h']; exact hnotin
    · rintro (⟨ds', hkey', hne', hnotin', hdsne', hds'⟩ | ⟨hnotin', rfl⟩)
      · have h2 : matchIdxSuffix key.data = some colName.data :=
          matchIdxSuffix_eq_some.mpr ⟨ds', hkey', hne', hnotin', hdsne', hds'⟩
        rw [hm] at h2
        injection h2 with h3
        rw [h3]
      · exfalso
        apply hnotin'
        rw [hkey]
        exact List.mem_append_right _ (List.mem_cons_self _ _)

/-! ### Claim C3: the identifier denylist -/

/-- C3 (amended): `isIdField` holds exactly when the base column name — the
path after stripping one trailing `[N]` index, or the bare bracket-free
path — ends in `Id` or `ID` and the column found under that name unwraps to
`String` or to an array whose element text unwraps to `String` (the source
unwraps `Nullable(...)`/`LowCardinality(...)` inside the array element, so
`Array(Nullable(String))` also qualifies — see the counterexample);
a path with a bracket index followed by further sub-keys is never an
identifier field; and an identifier field is always denylisted. -/
theorem C3_isIdField_amended (key : String) (columnMeta : List ColumnDescriptor) :
    (isIdField key columnMeta = true ↔ IsIdentifierField key columnMeta) ∧
    (∀ base ds sub : List Char, base ≠ [] → '[' ∉ base → ds ≠ [] →
      (∀ c ∈ ds, c.isDigit = true) → sub ≠ [] →
      isIdField ⟨base ++ '[' :: (ds ++ ']' :: '.' :: sub)⟩ columnMeta = false) ∧
    (isIdField key columnMeta = true → isDenylisted key columnMeta = true) := by
  refine ⟨⟨?_, ?_⟩, ?_, ?_⟩
  · intro h
    rw [isIdField] at h
    split at h
    next => cases h
    next colName hb =>
      cases he : (lEnds colName.data "Id".data || lEnds colName.data "ID".data) with
      | false => rw [he] at h; simp at h
      | true =>
        rw [he] at h
        simp only [Bool.not_true, Bool.false_eq_true, if_false] at h
        split at h
        next => cases h
        next col hf =>
          refine ⟨colName, baseColName_eq_some.mp hb, ?_, col, hf, ?_⟩
          · have he2 := he
            rw [Bool.or_eq_true] at he2
            rcases he2 with h1 | h1
            · exact Or.inl (lEnds_iff.mp h1)
            · exact Or.inr (lEnds_iff.mp h1)
          · by_cases h1 : stripTypeWrappers col.type = "String"
            · exact Or.inl h1
            · rw [if_neg h1] at h
              by_cases h2 : lStarts (stripTypeWrappers col.type).data "Array(".data = true
              · rw [if_pos h2] at h
                exact Or.inr ⟨h2, of_decide_eq_true h⟩
              · rw [if_neg h2] at h; cases h
  · rintro ⟨colName, hbase, hends, col, hf, htype⟩
    have hb : baseColName key = some colName := baseColName_eq_some.mpr hbase
    rw [isIdField]
    simp only [hb]
    have he : (lEnds colName.data "Id".data || lEnds colName.data "ID".data) = true := by
      rw [Bool.or_eq_true]
      rcases hends with ⟨t, ht⟩ | ⟨t, ht⟩
      · exact Or.inl (lEnds_iff.mpr ⟨t, ht⟩)
      · exact Or.inr (lEnds_iff.mpr ⟨t, ht⟩)
    rw [he]
    simp only [Bool.not_true, Bool.false_eq_true, if_false]
    simp only [hf]
    rcases htype with h1 | ⟨h2, h3⟩
    · rw [if_pos h1]
    · have hne : ¬ (stripTypeWrappers col.type = "String") := by
        intro heq
        rw [heq] at h2
        exact absurd h2 (by decide)
      rw [if_neg hne, if_pos h2]
      exact decide_eq_true h3
  · intro base ds sub hbne hbnotin hdsne hds hsubne
    have h1 := takeWhile_dropWhile_split (fun c => decide (c ≠ '[')) base '['
      (ds ++ ']' :: '.' :: sub)
      (fun x hx => by
        simp only [decide_eq_true_eq]
        intro hhe
        exact hbnotin (hhe ▸ hx))
      (by simp)
    have h2 := takeWhile_dropWhile_split Char.isDigit ds ']' ('.' :: sub) hds (by decide)
    have hmatch : matchIdxSuffix (base ++ '[' :: (ds ++ ']' :: '.' :: sub)) = none := by
      rw [matchIdxSuffix, h1.2]
      simp only [h1.1, h2.1, h2.2]
      rw [if_neg]
      simp only [Bool.and_eq_true, decide_eq_true_eq]
      rintro ⟨-, h3⟩
      cases h3
    have hcont : (base ++ '[' :: (ds ++ ']' :: '.' :: sub)).contains '[' = true :=
      containsChar_iff.mpr (List.mem_append_right _ (List.mem_cons_self _ _))
    have hbase : baseColName ⟨base ++ '[' :: (ds ++ ']' :: '.' :: sub)⟩ = none := by
      rw [baseColName]
      simp only [hmatch]
      rw [if_pos hcont]
    rw [isIdField, hbase]
  · intro h
    rw [isDenylisted, h, Bool.true_or]

/-- The claim's literal type condition fails on the code:
`Array(Nullable(String))` does not unwrap (at the top level) to `String` or
to the text `Array(String)`, yet the source treats a column of that type as
an identifier field, because it strips wrappers inside the array element
text. -/
theorem C3_isIdField_counterexample :
    isIdField "FooId" [⟨"FooId", "Array(Nullable(String))"⟩] = true ∧
    stripTypeWrappers "Array(Nullable(String))" ≠ "String" ∧
    stripTypeWrappers "Array(Nullable(String))" ≠ "Array(String)" := by
  refine ⟨by decide, by decide, by decide⟩

/-- Concrete instantiation of `C3_isIdField_amended`, discharging its
hypotheses: `Col[0].sub` is never an identifier field, and the identifier
field `TraceId` is denylisted. -/
theorem C3_isIdField_witness :
    isIdField "Col[0].sub" [⟨"TraceId", "String"⟩] = false ∧
    isDenylisted "TraceId" [⟨"TraceId", "String"⟩] = true :=
  ⟨(C3_isIdField_amended "TraceId" [⟨"TraceId", "String"⟩]).2.1
      "Col".data ['0'] "sub".data (by decide) (by decide) (by decide) (by decide) (by decide),
   (C3_isIdField_amended "TraceId" [⟨"TraceId", "String"⟩]).2.2 (by decide)⟩

/-! ### Claim C7: the flattener's empty-array sentinel (code bug)

The source intends `if (l == 0) result[prop] = []` to record an
empty-container sentinel for an empty array, mirroring the empty-object
sentinel — but the `l` read there is the outer `let l;`, shadowed by the `l`
declared in the `for` head, so it is still `undefined` and `undefined == 0`
is false: an empty array records nothing. -/

/-- C7 (code bug): flattening a record whose field holds an empty array
produces an empty flat record — the `prefix -> []` sentinel the spec
describes is never written (dead code through variable shadowing) — while an
empty object at the same position does record the `prefix -> \x7b\x7d`
sentinel. -/
theorem C7_flattenData_emptyArraySentinel :
    flattenData (JData.obj [("a", JData.arr [])]) = [] ∧
    flattenData (JData.obj [("a", JData.obj [])]) = [("a", JVal.emptyObjS)] := by
  constructor <;>
    simp [flattenData, flattenRec, flattenObjFields, flattenArrElems, mapSetStr]

/-! ### Claim C5: the path translator's index increment law -/

theorem digitChar10_toNat {d : Nat} (h : d < 10) : (digitChar10 d).toNat = 48 + d := by
  interval_cases d <;> rfl

theorem digitChar10_isDigit {d : Nat} (h : d < 10) : (digitChar10 d).isDigit = true := by
  interval_cases d <;> rfl

theorem parseDigits_append_digit (xs : List Char) (c : Char) :
    parseDigits (xs ++ [c]) = 10 * parseDigits xs + (c.toNat - 48) := by
  rw [parseDigits, List.foldl_append]
  rfl

theorem natToDecAux_spec :
    ∀ f n, n < f → parseDigits (natToDecAux f n) = n ∧ natToDecAux f n ≠ [] ∧
      ∀ c ∈ natToDecAux f n, c.isDigit = true := by
  intro f
  induction f with
  | zero => intro n hn; omega
  | succ f ih =>
    intro n hn
    rw [natToDecAux]
    by_cases h10 : n < 10
    · rw [if_pos h10]
      refine ⟨?_, by simp, ?_⟩
      · show 10 * 0 + ((digitChar10 n).toNat - 48) = n
        rw [digitChar10_toNat h10]
        omega
      · intro c hc
        rcases List.mem_singleton.mp hc with rfl
        exact digitChar10_isDigit h10
    · rw [if_neg h10]
      have hdiv : n / 10 < f := by
        have := Nat.div_lt_self (by omega : 0 < n) (by omega : 1 < 10)
        omega
      obtain ⟨ihp, ihne, ihd⟩ := ih (n / 10) hdiv
      refine ⟨?_, by simp, ?_⟩
      · rw [parseDigits_append_digit, ihp, digitChar10_toNat (Nat.mod_lt n (by omega))]
        omega
      · intro c hc
        rcases List.mem_append.mp hc with hc | hc
        · exact ihd c hc
        · rcases List.mem_singleton.mp hc with rfl
          exact digitChar10_isDigit (Nat.mod_lt n (by omega))

theorem parseDigits_natToDec (n : Nat) : parseDigits (natToDec n) = n :=
  (natToDecAux_spec (n + 1) n (Nat.lt_succ_self n)).1

theorem natToDec_ne_nil (n : Nat) : natToDec n ≠ [] :=
  (natToDecAux_spec (n + 1) n (Nat.lt_succ_self n)).2.1

theorem natToDec_isDigit (n : Nat) : ∀ c ∈ natToDec n, c.isDigit = true :=
  (natToDecAux_spec (n + 1) n (Nat.lt_succ_self n)).2.2

theorem lStarts_array_not_map {cs : List Char}
    (h : lStarts cs "Array(".data = true) : lStarts cs "Map(".data = false := by
  rcases lStarts_iff.mp h with ⟨t, rfl⟩
  rfl

/-- The array-of-map regular expression succeeds on
`name[digits].remainder` (nonempty digits, nonempty remainder free of line
terminators), yielding the digit string and the remainder. -/
theorem matchArrMapPath_spec (name ds rest : List Char)
    (hds : ds ≠ []) (hdig : ∀ c ∈ ds, c.isDigit = true)
    (hrest : rest ≠ []) (hnl : ∀ ch ∈ rest, nlClass ch = false) :
    matchArrMapPath name (name ++ '[' :: (ds ++ ']' :: '.' :: rest)) = some (ds, rest) := by
  have hdp : dropPre (name ++ '[' :: (ds ++ ']' :: '.' :: rest)) (name ++ ['[']) =
      some (ds ++ ']' :: '.' :: rest) := by
    rw [dropPre_eq_some, List.append_assoc]
    rfl
  have hsplit := takeWhile_dropWhile_split Char.isDigit ds ']' ('.' :: rest) hdig (by decide)
  rw [matchArrMapPath, hdp]
  simp only [hsplit.1, hsplit.2]
  rw [if_pos]
  rw [Bool.and_eq_true, Bool.and_eq_true]
  refine ⟨⟨by simpa using hds, by simpa using hrest⟩, ?_⟩
  rw [List.all_eq_true]
  intro c hc
  simp [hnl c hc]

/-- The column loop of `flattenedKeyToSqlExpression` returns the first
column's rewrite once every earlier column has failed to match. -/
theorem flattenedKey_loop (key : String) (meta₁ meta₂ : List ColumnDescriptor)
    (c : ColumnDescriptor) (s : String)
    (h1 : ∀ b ∈ meta₁, tryColumn key b = none) (h2 : tryColumn key c = some s) :
    flattenedKeyToSqlExpression key (meta₁ ++ c :: meta₂) = s := by
  induction meta₁ with
  | nil =>
    rw [List.nil_append, flattenedKeyToSqlExpression]
    simp only [h2]
  | cons b t ih =>
    rw [List.cons_append, flattenedKeyToSqlExpression]
    simp only [h1 b (List.mem_cons_self b t)]
    exact ih (fun b' hb' => h1 b' (List.mem_cons_of_mem _ hb'))

/-- `tryColumn` on an array-of-map column rewrites `name[i].rest` to
`name[i+1]['rest']`. -/
theorem tryColumn_arrayMap (c : ColumnDescriptor) (i : Nat) (rest : List Char)
    (hArr : lStarts (stripTypeWrappers c.type).data "Array(".data = true)
    (hMap : lStarts (stripTypeWrappers
      ⟨sliceToLast (stripTypeWrappers c.type).data 6⟩).data "Map(".data = true)
    (hrest : rest ≠ []) (hnl : ∀ ch ∈ rest, nlClass ch = false) :
    tryColumn ⟨c.name.data ++ '[' :: (natToDec i ++ ']' :: '.' :: rest)⟩ c =
      some (c.name ++ "[" ++ natToStr (i + 1) ++ "]['" ++ (⟨rest⟩ : String) ++ "']") := by
  rw [tryColumn]
  rw [lStarts_array_not_map hArr]
  simp only [Bool.false_eq_true, if_false, hArr, if_true, hMap]
  have hm := matchArrMapPath_spec c.name.data (natToDec i) rest
    (natToDec_ne_nil i) (natToDec_isDigit i) hrest hnl
  simp only [hm]
  rw [parseDigits_natToDec]

/-- `tryColumn` on a map column rewrites `name.rest` to `name['rest']`. -/
theorem tryColumn_map (c : ColumnDescriptor) (rest : List Char)
    (hMap : lStarts (stripTypeWrappers c.type).data "Map(".data = true) :
    tryColumn ⟨c.name.data ++ '.' :: rest⟩ c =
      some (c.name ++ "['" ++ (⟨rest⟩ : String) ++ "']") := by
  rw [tryColumn]
  simp only [hMap, if_true]
  have hpre : lStarts (c.name.data ++ '.' :: rest) (c.name.data ++ ['.']) = true := by
    rw [lStarts_iff]
    exact ⟨rest, by rw [List.append_assoc]; rfl⟩
  simp only [hpre, if_true]
  have hdrop : (c.name.data ++ '.' :: rest).drop (c.name.data.length + 1) = rest := by
    have h1 : c.name.data ++ '.' :: rest = (c.name.data ++ ['.']) ++ rest := by
      rw [List.append_assoc]; rfl
    have h2 : c.name.data.length + 1 = (c.name.data ++ ['.']).length := by simp
    rw [h1, h2, List.drop_left]
  rw [hdrop]

/-- C5 (amended): for a column whose unwrapped type is an array of a map
type, a path `columnName[i].remainder` (remainder nonempty and free of line
terminators, so the `.`-pattern of the source's regular expression can match
it) translates to `columnName[i+1]['remainder']`, the remainder kept whole;
and for a plain map column, `columnName.remainder` translates to
`columnName['remainder']` — in both cases provided no earlier column of the
metadata list already captures the path (the source takes the first match;
see the counterexample). -/
theorem C5_flattenedKeyToSqlExpression_amended
    (meta₁ meta₂ : List ColumnDescriptor) (c : ColumnDescriptor) :
    (∀ (i : Nat) (rest : List Char),
      lStarts (stripTypeWrappers c.type).data "Array(".data = true →
      lStarts (stripTypeWrappers
        ⟨sliceToLast (stripTypeWrappers c.type).data 6⟩).data "Map(".data = true →
      rest ≠ [] → (∀ ch ∈ rest, nlClass ch = false) →
      (∀ b ∈ meta₁,
        tryColumn ⟨c.name.data ++ '[' :: (natToDec i ++ ']' :: '.' :: rest)⟩ b = none) →
      flattenedKeyToSqlExpression ⟨c.name.data ++ '[' :: (natToDec i ++ ']' :: '.' :: rest)⟩
        (meta₁ ++ c :: meta₂) =
        c.name ++ "[" ++ natToStr (i + 1) ++ "]['" ++ (⟨rest⟩ : String) ++ "']") ∧
    (∀ rest : List Char,
      lStarts (stripTypeWrappers c.type).data "Map(".data = true →
      (∀ b ∈ meta₁, tryColumn ⟨c.name.data ++ '.' :: rest⟩ b = none) →
      flattenedKeyToSqlExpression ⟨c.name.data ++ '.' :: rest⟩ (meta₁ ++ c :: meta₂) =
        c.name ++ "['" ++ (⟨rest⟩ : String) ++ "']") := by
  constructor
  · intro i rest hArr hMap hrest hnl hearlier
    exact flattenedKey_loop _ meta₁ meta₂ c _ hearlier
      (tryColumn_arrayMap c i rest hArr hMap hrest hnl)
  · intro rest hMap hearlier
    exact flattenedKey_loop _ meta₁ meta₂ c _ hearlier (tryColumn_map c rest hMap)

/-- The claim quantified over every metadata list containing an
array-of-map column, but the source checks columns in order and an earlier
map column can capture the path first: with `A` a map column and `A.B` an
array-of-map column, `A.B[0].k` is rewritten through `A`, not through
`A.B`. -/
theorem C5_flattenedKeyToSqlExpression_counterexample :
    flattenedKeyToSqlExpression "A.B[0].k"
      [⟨"A", "Map(String, String)"⟩, ⟨"A.B", "Array(Map(String, String))"⟩] =
      "A['B[0].k']" ∧
    flattenedKeyToSqlExpression "A.B[0].k"
      [⟨"A", "Map(String, String)"⟩, ⟨"A.B", "Array(Map(String, String))"⟩] ≠
      "A.B[1]['k']" :=
  ⟨by decide, by decide⟩

/-- Concrete instantiation of `C5_flattenedKeyToSqlExpression_amended`,
discharging its hypotheses: the repository's own example
`Events.Attributes[4].key` → `Events.Attributes[5]['key']`, and the map
rewrite `ResourceAttributes.service.name` →
`ResourceAttributes['service.name']`. -/
theorem C5_flattenedKeyToSqlExpression_witness :
    flattenedKeyToSqlExpression "Events.Attributes[4].key"
      [⟨"Events.Attributes", "Array(Map(String, String))"⟩] =
      "Events.Attributes[5]['key']" ∧
    flattenedKeyToSqlExpression "ResourceAttributes.service.name"
      [⟨"ResourceAttributes", "Map(String, String)"⟩] =
      "ResourceAttributes['service.name']" := by
  constructor
  · have h := (C5_flattenedKeyToSqlExpression_amended []
      [] ⟨"Events.Attributes", "Array(Map(String, String))"⟩).1 4 "key".data
      (by decide) (by decide) (by decide) (by decide) (by intro b hb; cases hb)
    exact h
  · have h := (C5_flattenedKeyToSqlExpression_amended []
      [] ⟨"ResourceAttributes", "Map(String, String)"⟩).2 "service.name".data
      (by decide) (by intro b hb; cases hb)
    exact h

/-! ### Claim C1: the delta ranker -/

/-- C1: the ranked candidate list of `sortedProperties` consists exactly
(without duplication) of the outlier distribution's keys — of the inlier
distribution's keys when the outlier distribution has none — ordered by
maximum absolute percentage delta descending, where each key's score as
computed by the code equals the spec-side `specMaxDelta` (the maximum over
the merged values of |outlier percentage − inlier percentage|, a missing
percentage counting as 0), and a key with no values in either group scores
0. -/
theorem C1_sortedProperties (ovo ivo : List (String × List (String × ℚ))) :
    (∀ k, k ∈ sortedProperties ovo ivo ↔
      k ∈ (if ovo.map (·.1) = [] then ivo.map (·.1) else ovo.map (·.1))) ∧
    (sortedProperties ovo ivo).Nodup ∧
    (sortedProperties ovo ivo).Pairwise (fun a b =>
      specMaxDelta ((lookupStr ovo b).getD []) ((lookupStr ivo b).getD []) ≤
        specMaxDelta ((lookupStr ovo a).getD []) ((lookupStr ivo a).getD [])) ∧
    (∀ k, maxValueDelta ovo ivo k =
      specMaxDelta ((lookupStr ovo k).getD []) ((lookupStr ivo k).getD [])) ∧
    (∀ k, lookupStr ovo k = none → lookupStr ivo k = none →
      maxValueDelta ovo ivo k = 0) := by
  have hperm : (sortedProperties ovo ivo).Perm
      (if (dedupKeepFirst (ovo.map (·.1))).isEmpty
       then dedupKeepFirst (ivo.map (·.1)) else dedupKeepFirst (ovo.map (·.1))) := by
    rw [sortedProperties]
    refine ((List.perm_insertionSort deltaRel _).map (·.1)).trans ?_
    have hcomp : ((fun (x : String × ℚ) => x.1) ∘ fun key => (key, maxValueDelta ovo ivo key)) = id := rfl
    rw [List.map_map, hcomp, List.map_id]
  have hcand : (if (dedupKeepFirst (ovo.map (·.1))).isEmpty
       then dedupKeepFirst (ivo.map (·.1)) else dedupKeepFirst (ovo.map (·.1))).Nodup := by
    split <;> exact nodup_dedupKeepFirst _
  refine ⟨?_, ?_, ?_, maxValueDelta_eq_specMaxDelta ovo ivo, ?_⟩
  · intro k
    rw [hperm.mem_iff]
    by_cases h : ovo.map (·.1) = []
    · have : (dedupKeepFirst (ovo.map (·.1))).isEmpty = true := by
        rw [List.isEmpty_iff, dedupKeepFirst_eq_nil]; exact h
      rw [if_pos h, if_pos this, mem_dedupKeepFirst]
    · have : ¬ ((dedupKeepFirst (ovo.map (·.1))).isEmpty = true) := by
        rw [List.isEmpty_iff, dedupKeepFirst_eq_nil]; exact h
      rw [if_neg h, if_neg this, mem_dedupKeepFirst]
  · exact hperm.nodup_iff.mpr hcand
  · have hsorted := List.sorted_insertionSort deltaRel
      ((if (dedupKeepFirst (ovo.map (·.1))).isEmpty
        then dedupKeepFirst (ivo.map (·.1)) else dedupKeepFirst (ovo.map (·.1))).map
        (fun key => (key, maxValueDelta ovo ivo key)))
    have hmem : ∀ p ∈ List.insertionSort deltaRel
        ((if (dedupKeepFirst (ovo.map (·.1))).isEmpty
          then dedupKeepFirst (ivo.map (·.1)) else dedupKeepFirst (ovo.map (·.1))).map
          (fun key => (key, maxValueDelta ovo ivo key))),
        p.2 = maxValueDelta ovo ivo p.1 := by
      intro p hp
      have hp2 := (List.perm_insertionSort deltaRel _).subset hp
      rcases List.mem_map.mp hp2 with ⟨k, -, hk⟩
      rw [← hk]
    have hstrong : (List.insertionSort deltaRel
        ((if (dedupKeepFirst (ovo.map (·.1))).isEmpty
          then dedupKeepFirst (ivo.map (·.1)) else dedupKeepFirst (ovo.map (·.1))).map
          (fun key => (key, maxValueDelta ovo ivo key)))).Pairwise (fun p q =>
        specMaxDelta ((lookupStr ovo q.1).getD []) ((lookupStr ivo q.1).getD []) ≤
          specMaxDelta ((lookupStr ovo p.1).getD []) ((lookupStr ivo p.1).getD [])) := by
      refine hsorted.imp_of_mem ?_
      intro p q hpmem hqmem hrel
      have h1 := hmem p hpmem
      have h2 := hmem q hqmem
      rw [← maxValueDelta_eq_specMaxDelta, ← maxValueDelta_eq_specMaxDelta, ← h1, ← h2]
      exact hrel
    rw [sortedProperties]
    exact List.pairwise_map.mpr hstrong
  · intro k h1 h2
    rw [maxValueDelta_eq_specMaxDelta, h1, h2]
    simp [specMaxDelta, dedupKeepFirst]

/-- Concrete instantiation of `C1_sortedProperties`, discharging the
missing-from-both-groups hypotheses: a key absent from both distributions
scores 0. -/
theorem C1_sortedProperties_witness :
    maxValueDelta [("a", [("x", 50)])] [("b", [("y", 25)])] "zz" = 0 :=
  (C1_sortedProperties [("a", [("x", 50)])] [("b", [("y", 25)])]).2.2.2.2 "zz" rfl rfl

/-! ### Claim C4: the Top-N aggregator -/

/-- C4: for every input list of merged value rows, a list of at most 6 rows
is returned unchanged (no `isOther` row, even at exactly 6); a longer list
yields exactly 7 entries — six rows, each with combined count at least that
of every dropped row, followed by one `isOther` row named `Other (k)` for the
`k = length - 6` dropped rows — and the sums of `outlierCount` and of
`inlierCount` over the output each equal the sums over the input. -/
theorem C4_applyTopNAggregation (data : List MergedRow) :
    (data.length ≤ 6 → applyTopNAggregation data = data) ∧
    (6 < data.length →
      (applyTopNAggregation data).length = 7 ∧
      (∃ top last, applyTopNAggregation data = top ++ [last] ∧ top.length = 6 ∧
        last.isOther = true ∧
        last.name = "Other (" ++ natToStr (data.length - 6) ++ ")" ∧
        (∃ rest, data.Perm (top ++ rest) ∧
          ∀ a ∈ top, ∀ b ∈ rest,
            b.outlierCount + b.inlierCount ≤ a.outlierCount + a.inlierCount)) ∧
      ((applyTopNAggregation data).map (·.outlierCount)).sum =
        (data.map (·.outlierCount)).sum ∧
      ((applyTopNAggregation data).map (·.inlierCount)).sum =
        (data.map (·.inlierCount)).sum) := by
  constructor
  · intro h
    simp [applyTopNAggregation, MAX_CHART_VALUES, h]
  · intro h
    have hnot : ¬ data.length ≤ MAX_CHART_VALUES := by
      simp only [MAX_CHART_VALUES]; omega
    have hperm : (List.insertionSort topNRel data).Perm data :=
      List.perm_insertionSort topNRel data
    have hsorted : List.Sorted topNRel (List.insertionSort topNRel data) :=
      List.sorted_insertionSort topNRel data
    have hlen : (List.insertionSort topNRel data).length = data.length :=
      hperm.length_eq
    set s := List.insertionSort topNRel data with hs
    have hout : applyTopNAggregation data =
        s.take 6 ++ [⟨"Other (" ++ natToStr (s.drop 6).length ++ ")",
          ((s.drop 6).map (·.outlierCount)).sum,
          ((s.drop 6).map (·.inlierCount)).sum, true⟩] := by
      simp only [applyTopNAggregation, MAX_CHART_VALUES] at *
      rw [if_neg hnot]
    have htake : (s.take 6).length = 6 := by
      rw [List.length_take]; omega
    have hsplit : s.take 6 ++ s.drop 6 = s := List.take_append_drop 6 s
    have hdroplen : (s.drop 6).length = data.length - 6 := by
      rw [List.length_drop]; omega
    have hpairs : ∀ a ∈ s.take 6, ∀ b ∈ s.drop 6, topNRel a b := by
      have h2 := hsorted
      rw [← hsplit] at h2
      exact (List.pairwise_append.mp h2).2.2
    refine ⟨?_, ⟨s.take 6, _, hout, htake, rfl, by rw [hdroplen], ?_⟩, ?_, ?_⟩
    · rw [hout]; simp [htake]
    · exact ⟨s.drop 6, by rw [hsplit]; exact hperm.symm, hpairs⟩
    · rw [hout]
      have : (data.map (·.outlierCount)).sum = ((s.take 6 ++ s.drop 6).map (·.outlierCount)).sum := by
        rw [hsplit]; exact ((hperm.map (·.outlierCount)).sum_eq).symm
      rw [this]; simp
    · rw [hout]
      have : (data.map (·.inlierCount)).sum = ((s.take 6 ++ s.drop 6).map (·.inlierCount)).sum := by
        rw [hsplit]; exact ((hperm.map (·.inlierCount)).sum_eq).symm
      rw [this]; simp

/-- Concrete instantiation of `C4_applyTopNAggregation` at a 2-row input
(returned unchanged) and at an 8-row input (collapsed to 7 entries ending in
an `Other (2)` row), discharging both hypotheses. -/
theorem C4_applyTopNAggregation_witness :
    applyTopNAggregation [⟨"a", 1, 0, false⟩, ⟨"b", 2, 0, false⟩] =
      [⟨"a", 1, 0, false⟩, ⟨"b", 2, 0, false⟩] ∧
    (applyTopNAggregation
      [⟨"a", 8, 0, false⟩, ⟨"b", 7, 0, false⟩, ⟨"c", 6, 0, false⟩,
       ⟨"d", 5, 0, false⟩, ⟨"e", 4, 0, false⟩, ⟨"f", 3, 0, false⟩,
       ⟨"g", 2, 0, false⟩, ⟨"h", 1, 0, false⟩]).length = 7 :=
  ⟨(C4_applyTopNAggregation _).1 (by norm_num),
   ((C4_applyTopNAggregation _).2 (by norm_num)).1⟩

/-! ### Claim C2: the high-cardinality classifier -/

/-- C2: `isHighCardinality` returns false whenever the combined sample size
is at most 20, and otherwise returns true exactly when the effective
uniqueness — the minimum of the two per-group distinct-value ratios when
both groups have data, the single defined ratio otherwise — exceeds 0.9
(when neither ratio is defined the combined sample size is 0, so the first
clause already gives false). -/
theorem C2_isHighCardinality (key : String)
    (ovo ivo : List (String × List (String × ℚ))) (opo ipo : List (String × Nat)) :
    ((lookupStr opo key).getD 0 + (lookupStr ipo key).getD 0 ≤ 20 →
      isHighCardinality key ovo ivo opo ipo = false) ∧
    (20 < (lookupStr opo key).getD 0 + (lookupStr ipo key).getD 0 →
      (isHighCardinality key ovo ivo opo ipo = true ↔
        ∃ u, effectiveUniquenessSpec
            (uniquenessQ ((lookupStr ovo key).getD []).length ((lookupStr opo key).getD 0))
            (uniquenessQ ((lookupStr ivo key).getD []).length ((lookupStr ipo key).getD 0))
              = some u ∧
          9 / 10 < u)) := by
  constructor
  · intro h
    simp only [isHighCardinality]
    rw [if_pos h]
  · intro h
    have hnot : ¬ ((lookupStr opo key).getD 0 + (lookupStr ipo key).getD 0 ≤ 20) := by omega
    simp only [isHighCardinality, uniquenessQ, effectiveUniquenessSpec]
    rw [if_neg hnot]
    rcases Nat.eq_zero_or_pos ((lookupStr opo key).getD 0) with h1 | h1 <;>
      rcases Nat.eq_zero_or_pos ((lookupStr ipo key).getD 0) with h2 | h2 <;>
        simp [h1, h2, gt_iff_lt]

/-- Concrete instantiation of `C2_isHighCardinality`: with no data at all the
combined sample size is 0, so the classifier answers false; with 21
occurrences spread over 21 distinct values in the outlier group alone, the
effective uniqueness is 1 > 0.9, so the classifier answers true. -/
theorem C2_isHighCardinality_witness :
    isHighCardinality "k" [] [] [] [] = false ∧
    isHighCardinality "k"
      [("k", (List.range 21).map (fun i => (natToStr i, (1 : ℚ))))] [] [("k", 21)] [] = true := by
  constructor
  · exact (C2_isHighCardinality "k" [] [] [] []).1 (by norm_num [lookupStr])
  · rw [(C2_isHighCardinality "k" _ [] _ []).2 (by norm_num [lookupStr])]
    refine ⟨1, ?_, by norm_num⟩
    have h1 : (lookupStr [("k", (List.range 21).map (fun i => (natToStr i, (1 : ℚ))))] "k").getD [] =
        (List.range 21).map (fun i => (natToStr i, (1 : ℚ))) := rfl
    have h2 : (lookupStr [("k", 21)] "k").getD 0 = 21 := rfl
    rw [h1, h2]
    norm_num [uniquenessQ, effectiveUniquenessSpec, lookupStr]

/-! ### Statistics-aggregator lemmas (claims C6, C8, C10) -/

theorem lookupStr_mapSetStr_self {β : Type} (m : List (String × β)) (k : String) (v : β) :
    lookupStr (mapSetStr m k v) k = some v := by
  induction m with
  | nil => simp [mapSetStr, lookupStr]
  | cons h t ih =>
    obtain ⟨k', v'⟩ := h
    rw [mapSetStr]
    by_cases hk : k' = k
    · rw [if_pos hk, lookupStr, if_pos hk]
    · rw [if_neg hk, lookupStr, if_neg hk]
      exact ih

theorem lookupStr_mapSetStr_ne {β : Type} (m : List (String × β)) (k p : String) (v : β)
    (h : p ≠ k) : lookupStr (mapSetStr m k v) p = lookupStr m p := by
  induction m with
  | nil =>
    rw [mapSetStr]
    simp only [lookupStr]
    rw [if_neg (fun he => h he.symm)]
  | cons hd t ih =>
    obtain ⟨k', v'⟩ := hd
    rw [mapSetStr]
    by_cases hk : k' = k
    · rw [if_pos hk, lookupStr, lookupStr]
      have : ¬ (k' = p) := fun he => h (he ▸ hk ▸ rfl : p = k)
      rw [if_neg this, if_neg this]
    · rw [if_neg hk, lookupStr, lookupStr]
      by_cases hp : k' = p
      · rw [if_pos hp, if_pos hp]
      · rw [if_neg hp, if_neg hp]
        exact ih

theorem mem_setAddStr {s : List String} {k p : String} :
    p ∈ setAddStr s k ↔ p ∈ s ∨ p = k := by
  rw [setAddStr]
  by_cases h : k ∈ s
  · rw [if_pos h]
    constructor
    · exact Or.inl
    · rintro (h2 | rfl)
      · exact h2
      · exact h
  · rw [if_neg h]
    simp

theorem foldl_nested {α β : Type} (f : β → α → β) (L : List (List α)) (b : β) :
    L.foldl (fun st item => item.foldl f st) b = (L.flatten).foldl f b := by
  induction L generalizing b with
  | nil => rfl
  | cons l L ih =>
    rw [List.foldl_cons, ih]
    show (L.flatten).foldl f (l.foldl f b) = (l ++ L.flatten).foldl f b
    rw [List.foldl_append]

theorem pass1_fold_count (es : List (String × JVal))
    (st : List (String × Nat) × List String) (p : String) :
    (lookupStr (es.foldl statsPass1Step st).1 p).getD 0 =
      (lookupStr st.1 p).getD 0 + es.countP (fun kv => kv.1 = p) := by
  induction es generalizing st with
  | nil => simp
  | cons kv t ih =>
    rw [List.foldl_cons, ih, List.countP_cons]
    by_cases hp : kv.1 = p
    · have hstep : (statsPass1Step st kv).1 =
          mapSetStr st.1 kv.1 ((lookupStr st.1 kv.1).getD 0 + 1) := rfl
      rw [hstep, hp, lookupStr_mapSetStr_self]
      simp [hp]
      omega
    · have hstep : (statsPass1Step st kv).1 =
          mapSetStr st.1 kv.1 ((lookupStr st.1 kv.1).getD 0 + 1) := rfl
      rw [hstep, lookupStr_mapSetStr_ne _ _ _ _ (fun he => hp he.symm)]
      simp [hp]

theorem pass1_fold_common (es : List (String × JVal))
    (st : List (String × Nat) × List String)
    (hInv : ∀ q, q ∈ st.2 ↔ MIN_PROPERTY_OCCURENCES ≤ (lookupStr st.1 q).getD 0)
    (p : String) :
    p ∈ (es.foldl statsPass1Step st).2 ↔
      MIN_PROPERTY_OCCURENCES ≤ (lookupStr (es.foldl statsPass1Step st).1 p).getD 0 := by
  induction es generalizing st with
  | nil => exact hInv p
  | cons kv t ih =>
    rw [List.foldl_cons]
    apply ih
    intro q
    have h1 : (statsPass1Step st kv).1 =
        mapSetStr st.1 kv.1 ((lookupStr st.1 kv.1).getD 0 + 1) := rfl
    have h2 : (statsPass1Step st kv).2 =
        if (lookupStr st.1 kv.1).getD 0 + 1 ≥ MIN_PROPERTY_OCCURENCES
        then setAddStr st.2 kv.1 else st.2 := rfl
    rw [h1, h2]
    by_cases hq : q = kv.1
    · rw [hq, lookupStr_mapSetStr_self]
      by_cases h5 : (lookupStr st.1 kv.1).getD 0 + 1 ≥ MIN_PROPERTY_OCCURENCES
      · rw [if_pos h5, mem_setAddStr]
        simp only [Option.getD_some]
        constructor
        · intro _; exact h5
        · intro _; simp
      · rw [if_neg h5]
        rw [hInv kv.1]
        simp only [Option.getD_some]
        omega
    · rw [lookupStr_mapSetStr_ne _ _ _ _ hq]
      by_cases h5 : (lookupStr st.1 kv.1).getD 0 + 1 ≥ MIN_PROPERTY_OCCURENCES
      · rw [if_pos h5, mem_setAddStr]
        constructor
        · rintro (h2 | h2)
          · exact (hInv q).mp h2
          · exact absurd h2 hq
        · intro h2
          exact Or.inl ((hInv q).mpr h2)
      · rw [if_neg h5]
        exact hInv q

theorem statsPass1_count (flattened : List FlatRec) (p : String) :
    (lookupStr (statsPass1 flattened).1 p).getD 0 = occCount flattened p := by
  rw [statsPass1, foldl_nested, occCount]
  rw [pass1_fold_count]
  simp only [lookupStr, Option.getD_none, Nat.zero_add]

theorem statsPass1_common (flattened : List FlatRec) (p : String) :
    p ∈ (statsPass1 flattened).2 ↔ MIN_PROPERTY_OCCURENCES ≤ occCount flattened p := by
  rw [statsPass1, foldl_nested]
  rw [pass1_fold_common (flattened.flatten) ([], []) (by intro q; simp [lookupStr, MIN_PROPERTY_OCCURENCES]) p]
  rw [pass1_fold_count, occCount]
  simp only [lookupStr, Option.getD_none, Nat.zero_add]

theorem valueOccStep_lookup_ne (common : List String)
    (vo : List (String × List (JVal × Nat))) (kv : String × JVal) (p : String)
    (h : p ≠ kv.1) : lookupStr (valueOccStep common vo kv) p = lookupStr vo p := by
  rw [valueOccStep]
  by_cases hc : kv.1 ∈ common
  · rw [if_pos hc]
    exact lookupStr_mapSetStr_ne _ _ _ _ h
  · rw [if_neg hc]

theorem vo_fold_not_common (common : List String) (es : List (String × JVal))
    (vo : List (String × List (JVal × Nat))) (p : String) (h : p ∉ common) :
    lookupStr (es.foldl (valueOccStep common) vo) p = lookupStr vo p := by
  induction es generalizing vo with
  | nil => rfl
  | cons kv t ih =>
    rw [List.foldl_cons, ih]
    by_cases hp : p = kv.1
    · rw [valueOccStep, if_neg (hp ▸ h)]
    · exact valueOccStep_lookup_ne _ _ _ _ hp

theorem vo_fold_common (common : List String) (p : String) (hp : p ∈ common) :
    ∀ (es : List (String × JVal)) (vo : List (String × List (JVal × Nat))),
    lookupStr (es.foldl (valueOccStep common) vo) p =
      if es.countP (fun kv => kv.1 = p) = 0 then lookupStr vo p
      else some (bucketFold ((lookupStr vo p).getD [])
        ((es.filter (fun kv => kv.1 = p)).map (·.2))) := by
  intro es
  induction es with
  | nil => intro vo; simp
  | cons kv t ih =>
    obtain ⟨k, v⟩ := kv
    intro vo
    rw [List.foldl_cons, ih]
    by_cases hk : k = p
    · subst hk
      have hstep : valueOccStep common vo (k, v) =
          mapSetStr vo k (mapSetV ((lookupStr vo k).getD []) v
            (getV0 ((lookupStr vo k).getD []) v + 1)) := by
        rw [valueOccStep, if_pos hp]
      rw [hstep, lookupStr_mapSetStr_self]
      have hpcount : List.countP (fun kv => decide (kv.1 = k)) ((k, v) :: t) =
          List.countP (fun kv => decide (kv.1 = k)) t + 1 := by
        simp [List.countP_cons]
      have hpfil : List.filter (fun kv => decide (kv.1 = k)) ((k, v) :: t) =
          (k, v) :: List.filter (fun kv => decide (kv.1 = k)) t := by
        simp [List.filter_cons]
      rw [hpcount, hpfil]
      by_cases h0 : t.countP (fun kv => kv.1 = k) = 0
      · rw [if_pos h0, if_neg (by omega)]
        have hfil : t.filter (fun kv => kv.1 = k) = [] := by
          rw [List.filter_eq_nil_iff]
          intro a ha
          have h2 := (List.countP_eq_zero).mp h0 a ha
          simpa using h2
        rw [hfil]
        rfl
      · rw [if_neg h0, if_neg (by omega)]
        rfl
    · have hstep : lookupStr (valueOccStep common vo (k, v)) p = lookupStr vo p :=
        valueOccStep_lookup_ne _ _ _ _ (fun he => hk he.symm)
      rw [hstep]
      have hc2 : List.countP (fun kv => decide (kv.1 = p)) ((k, v) :: t) =
          List.countP (fun kv => decide (kv.1 = p)) t := by
        simp [List.countP_cons, hk]
      have hf2 : List.filter (fun kv => decide (kv.1 = p)) ((k, v) :: t) =
          List.filter (fun kv => decide (kv.1 = p)) t := by
        simp [List.filter_cons, hk]
      rw [hc2, hf2]

theorem valueOccurencesOf_eq (flattened : List FlatRec) (common : List String) (p : String) :
    lookupStr (valueOccurencesOf flattened common) p =
      if p ∈ common ∧ occCount flattened p ≠ 0 then some (bucketsOfProp flattened p)
      else none := by
  rw [valueOccurencesOf, foldl_nested]
  by_cases hp : p ∈ common
  · rw [vo_fold_common common p hp (flattened.flatten) []]
    by_cases h0 : (flattened.flatten).countP (fun kv => kv.1 = p) = 0
    · rw [if_pos h0, if_neg (by simp [occCount, h0])]
      rfl
    · rw [if_neg h0, if_pos ⟨hp, by simpa [occCount] using h0⟩]
      rfl
  · rw [vo_fold_not_common common (flattened.flatten) [] p hp]
    rw [if_neg (by tauto)]
    rfl

theorem lookupStr_percentageOccurencesOf
    (vo : List (String × List (JVal × Nat))) (occ : List (String × Nat)) (p : String) :
    lookupStr (percentageOccurencesOf vo occ) p =
      (lookupStr vo p).map (fun m => m.map (fun q =>
        (q.1, (q.2 : ℚ) / (((lookupStr occ p).getD 0 : Nat) : ℚ) * 100))) := by
  induction vo with
  | nil => rfl
  | cons hd t ih =>
    obtain ⟨k, m⟩ := hd
    rw [percentageOccurencesOf] at ih ⊢
    rw [List.map_cons, lookupStr, lookupStr]
    by_cases hk : k = p
    · subst hk
      rw [if_pos rfl, if_pos rfl]
      rfl
    · rw [if_neg hk, if_neg hk]
      exact ih

theorem mapSetV_bump_sum (m : List (JVal × Nat)) (v : JVal) :
    ((mapSetV m v (getV0 m v + 1)).map (·.2)).sum = ((m.map (·.2)).sum) + 1 := by
  induction m with
  | nil => simp [mapSetV, getV0, getV]
  | cons hd t ih =>
    obtain ⟨k, c⟩ := hd
    rw [mapSetV]
    by_cases hk : svz k v = true
    · rw [if_pos hk]
      have hc : getV0 ((k, c) :: t) v = c := by rw [getV0, getV, if_pos hk]; rfl
      rw [hc]
      simp
      omega
    · rw [if_neg hk]
      have hgv : getV0 ((k, c) :: t) v = getV0 t v := by rw [getV0, getV, if_neg hk]; rfl
      rw [hgv]
      simp only [List.map_cons, List.sum_cons]
      rw [ih]
      omega

theorem bucketFold_sum (vs : List JVal) :
    ∀ init : List (JVal × Nat),
      ((bucketFold init vs).map (·.2)).sum = ((init.map (·.2)).sum) + vs.length := by
  induction vs with
  | nil => intro init; simp [bucketFold]
  | cons v t ih =>
    intro init
    have hstep : bucketFold init (v :: t) =
        bucketFold (mapSetV init v (getV0 init v + 1)) t := rfl
    rw [hstep, ih, mapSetV_bump_sum]
    simp
    omega

theorem sum_map_scale (l : List (JVal × Nat)) (c : ℚ) :
    (l.map (fun q => (q.2 : ℚ) * c)).sum = ((l.map (fun q => (q.2 : ℚ))).sum) * c := by
  induction l with
  | nil => simp
  | cons h t ih => simp [ih, add_mul]

theorem sum_map_cast (l : List (JVal × Nat)) :
    (l.map (fun q => (q.2 : ℚ))).sum = (((l.map (·.2)).sum : ℕ) : ℚ) := by
  induction l with
  | nil => simp
  | cons h t ih => simp [ih]

theorem pvals_length (flattened : List FlatRec) (p : String) :
    (pvals flattened p).length = occCount flattened p := by
  rw [pvals, occCount, List.length_map, List.countP_eq_length_filter]

/-! ### Claim C6: the occurrence-threshold exclusion -/

/-- C6: the final property counter equals the per-entry occurrence count;
a property appears as a key of the returned percentage distribution exactly
when its occurrence count reaches the threshold 5 (below it the property is
excluded from distribution tracking entirely); and a property that reaches
the threshold carries the value-occurrence table accumulated over all of the
group's records — including the records seen before the threshold was
reached, since the second pass re-walks every record. -/
theorem C6_getPropertyStatistics (data : List JData) :
    (∀ p, (lookupStr (getPropertyStatistics data).propertyOccurences p).getD 0 =
      occCount (data.map flattenData) p) ∧
    (∀ p, (lookupStr (getPropertyStatistics data).percentageOccurences p).isSome = true ↔
      MIN_PROPERTY_OCCURENCES ≤ occCount (data.map flattenData) p) ∧
    (∀ p, MIN_PROPERTY_OCCURENCES ≤ occCount (data.map flattenData) p →
      lookupStr (valueOccurencesOf (data.map flattenData)
        (statsPass1 (data.map flattenData)).2) p =
        some (bucketsOfProp (data.map flattenData) p)) := by
  have hpct : (getPropertyStatistics data).percentageOccurences = percentageOccurencesOf
      (valueOccurencesOf (data.map flattenData) (statsPass1 (data.map flattenData)).2)
      (statsPass1 (data.map flattenData)).1 := rfl
  have hocc : (getPropertyStatistics data).propertyOccurences =
      (statsPass1 (data.map flattenData)).1 := rfl
  refine ⟨?_, ?_, ?_⟩
  · intro p
    rw [hocc]
    exact statsPass1_count _ p
  · intro p
    rw [hpct, lookupStr_percentageOccurencesOf, valueOccurencesOf_eq]
    constructor
    · intro hs
      by_cases hc : p ∈ (statsPass1 (data.map flattenData)).2 ∧
          occCount (data.map flattenData) p ≠ 0
      · exact (statsPass1_common _ p).mp hc.1
      · rw [if_neg hc] at hs
        simp at hs
    · intro h5
      have hne : occCount (data.map flattenData) p ≠ 0 := by
        simp only [MIN_PROPERTY_OCCURENCES] at h5
        omega
      rw [if_pos ⟨(statsPass1_common _ p).mpr h5, hne⟩]
      simp
  · intro p h5
    have hne : occCount (data.map flattenData) p ≠ 0 := by
      simp only [MIN_PROPERTY_OCCURENCES] at h5
      omega
    rw [valueOccurencesOf_eq, if_pos ⟨(statsPass1_common _ p).mpr h5, hne⟩]

/-- Concrete instantiation of `C6_getPropertyStatistics` at five records
`\x7ba: 1\x7d`, discharging the threshold hypothesis: the property `a` reaches
the threshold and carries its full accumulated value table. -/
theorem C6_getPropertyStatistics_witness :
    lookupStr (valueOccurencesOf
      ((List.replicate 5 (JData.obj [("a", JData.scalar (JVal.num 1))])).map flattenData)
      (statsPass1
        ((List.replicate 5 (JData.obj [("a", JData.scalar (JVal.num 1))])).map flattenData)).2)
      "a" =
      some (bucketsOfProp
        ((List.replicate 5 (JData.obj [("a", JData.scalar (JVal.num 1))])).map flattenData)
        "a") := by
  apply (C6_getPropertyStatistics _).2.2 "a"
  have hflat : (List.replicate 5 (JData.obj [("a", JData.scalar (JVal.num 1))])).map
      flattenData = List.replicate 5 [("a", JVal.num 1)] := by
    simp [flattenData, flattenRec, flattenObjFields, mapSetStr, List.replicate]
  rw [hflat]
  decide

/-! ### Claim C10: per-property percentages sum to exactly 100 -/

/-- C10: every property appearing in the returned percentage distribution
has percentages summing to exactly 100 (in exact rational arithmetic): each
entry carrying the property contributes exactly one value to exactly one
bucket, and the divisor is the property's own occurrence count. -/
theorem C10_percentagesSumTo100 (data : List JData) (p : String) (m : List (JVal × ℚ))
    (h : lookupStr (getPropertyStatistics data).percentageOccurences p = some m) :
    (m.map (·.2)).sum = 100 := by
  have hpct : (getPropertyStatistics data).percentageOccurences = percentageOccurencesOf
      (valueOccurencesOf (data.map flattenData) (statsPass1 (data.map flattenData)).2)
      (statsPass1 (data.map flattenData)).1 := rfl
  rw [hpct, lookupStr_percentageOccurencesOf, valueOccurencesOf_eq] at h
  by_cases hc : p ∈ (statsPass1 (data.map flattenData)).2 ∧
      occCount (data.map flattenData) p ≠ 0
  case neg => rw [if_neg hc] at h; cases h
  case pos =>
    rw [if_pos hc] at h
    rw [Option.map_some'] at h
    injection h with hm
    subst hm
    rw [List.map_map]
    have hcomp : ((fun x : JVal × ℚ => x.2) ∘ (fun q : JVal × Nat =>
        (q.1, (q.2 : ℚ) /
          (((lookupStr (statsPass1 (data.map flattenData)).1 p).getD 0 : Nat) : ℚ) * 100))) =
        fun q : JVal × Nat => (q.2 : ℚ) *
          (100 / (((lookupStr (statsPass1 (data.map flattenData)).1 p).getD 0 : Nat) : ℚ)) := by
      funext q
      show (q.2 : ℚ) / _ * 100 = (q.2 : ℚ) * (100 / _)
      ring
    rw [hcomp, sum_map_scale, sum_map_cast]
    have hsum : ((bucketsOfProp (data.map flattenData) p).map (·.2)).sum =
        occCount (data.map flattenData) p := by
      rw [bucketsOfProp, bucketFold_sum, pvals_length]
      simp
    rw [hsum, statsPass1_count]
    have hne : ((occCount (data.map flattenData) p : ℕ) : ℚ) ≠ 0 :=
      Nat.cast_ne_zero.mpr hc.2
    field_simp

/-- Concrete instantiation of `C10_percentagesSumTo100` at five records
`\x7ba: 1\x7d`, discharging its lookup hypothesis: the single bucket holds
5/5·100 percent, and the percentages sum to 100. -/
theorem C10_percentagesSumTo100_witness :
    (([(JVal.num 1, (5 : ℚ) / (5 : ℚ) * 100)].map (·.2)).sum : ℚ) = 100 := by
  have hflat : (List.replicate 5 (JData.obj [("a", JData.scalar (JVal.num 1))])).map
      flattenData = List.replicate 5 [("a", JVal.num 1)] := by
    simp [flattenData, flattenRec, flattenObjFields, mapSetStr, List.replicate]
  have h : lookupStr (getPropertyStatistics
      (List.replicate 5 (JData.obj [("a", JData.scalar (JVal.num 1))]))).percentageOccurences
      "a" = some [(JVal.num 1, (5 : ℚ) / (5 : ℚ) * 100)] := by
    have hpct : (getPropertyStatistics
        (List.replicate 5 (JData.obj [("a", JData.scalar (JVal.num 1))]))).percentageOccurences =
        percentageOccurencesOf
          (valueOccurencesOf ((List.replicate 5 (JData.obj [("a", JData.scalar
            (JVal.num 1))])).map flattenData)
            (statsPass1 ((List.replicate 5 (JData.obj [("a", JData.scalar
              (JVal.num 1))])).map flattenData)).2)
          (statsPass1 ((List.replicate 5 (JData.obj [("a", JData.scalar
            (JVal.num 1))])).map flattenData)).1 := rfl
    rw [hpct, hflat]
    with_unfolding_all decide
  exact C10_percentagesSumTo100 _ "a" _ h

/-! ### Claim C8: value bucketing equality -/

theorem svz_symm (a b : JVal) : svz a b = svz b a := by
  cases a <;> cases b <;> simp [svz, eq_comm]

theorem svz_eq_decide {v : JVal} (hv1 : v ≠ JVal.emptyObjS) (hv2 : v ≠ JVal.emptyArrS)
    (w : JVal) : svz w v = decide (w = v) := by
  cases v <;> cases w <;> simp_all [svz]

theorem getV_mapSetV_self (m : List (JVal × Nat)) (v : JVal) (c : Nat)
    (hv1 : v ≠ JVal.emptyObjS) (hv2 : v ≠ JVal.emptyArrS) :
    getV (mapSetV m v c) v = some c := by
  induction m with
  | nil =>
    rw [mapSetV, getV]
    rw [if_pos (by rw [svz_eq_decide hv1 hv2]; simp)]
  | cons hd t ih =>
    obtain ⟨k, u⟩ := hd
    rw [mapSetV]
    by_cases hk : svz k v = true
    · rw [if_pos hk, getV, if_pos hk]
    · rw [if_neg hk, getV, if_neg hk]
      exact ih

theorem getV_mapSetV_ne (m : List (JVal × Nat)) (w v : JVal) (c : Nat)
    (hv1 : v ≠ JVal.emptyObjS) (hv2 : v ≠ JVal.emptyArrS)
    (h : svz w v = false) : getV (mapSetV m w c) v = getV m v := by
  induction m with
  | nil =>
    rw [mapSetV]
    simp only [getV]
    rw [if_neg (by simp [h])]
  | cons hd t ih =>
    obtain ⟨k, u⟩ := hd
    rw [mapSetV]
    by_cases hk : svz k w = true
    · rw [if_pos hk, getV, getV]
      have hkv : svz k v = false := by
        by_contra hcon
        have h2 : svz k v = true := by
          cases h3 : svz k v
          · exact absurd h3 hcon
          · rfl
        have h4 : k = v := by rw [svz_eq_decide hv1 hv2] at h2; simpa using h2
        rw [h4] at hk
        rw [svz_symm] at hk
        rw [hk] at h
        cases h
      rw [if_neg (by simp [hkv]), if_neg (by simp [hkv])]
    · rw [if_neg hk, getV, getV]
      by_cases hkv : svz k v = true
      · rw [if_pos hkv, if_pos hkv]
      · rw [if_neg hkv, if_neg hkv]
        exact ih

theorem getV0_bucketFold (v : JVal) (hv1 : v ≠ JVal.emptyObjS) (hv2 : v ≠ JVal.emptyArrS)
    (vs : List JVal) :
    ∀ init, getV0 (bucketFold init vs) v = getV0 init v + vs.countP (fun w => svz w v) := by
  induction vs with
  | nil => intro init; simp [bucketFold]
  | cons w t ih =>
    intro init
    have hstep : bucketFold init (w :: t) =
        bucketFold (mapSetV init w (getV0 init w + 1)) t := rfl
    rw [hstep, ih, List.countP_cons]
    by_cases hw : svz w v = true
    · have hwv : w = v := by rw [svz_eq_decide hv1 hv2] at hw; simpa using hw
      subst hwv
      have hself : getV0 (mapSetV init w (getV0 init w + 1)) w = getV0 init w + 1 := by
        rw [getV0, getV_mapSetV_self init w _ hv1 hv2]
        rfl
      rw [hself]
      simp [hw]
      omega
    · have hne : getV0 (mapSetV init w (getV0 init w + 1)) v = getV0 init v := by
        rw [getV0, getV_mapSetV_ne init w v _ hv1 hv2 (by simpa using hw)]
        rfl
      rw [hne]
      simp [hw]

/-- C8 (amended): the statistics aggregator buckets observed values by
SameValueZero — strict, type-sensitive equality with no string coercion —
so for every primitive value `v`, the bucket count stored for a
threshold-reaching property is the number of entries carrying exactly `v`;
the number 5 and the string "5" therefore land in distinct buckets (see the
counterexample), contrary to the claim's stringified-equality collapse. -/
theorem C8_valueBuckets_amended (data : List JData) (p : String) (v : JVal)
    (hv1 : v ≠ JVal.emptyObjS) (hv2 : v ≠ JVal.emptyArrS)
    (h5 : MIN_PROPERTY_OCCURENCES ≤ occCount (data.map flattenData) p) :
    ∃ m, lookupStr (valueOccurencesOf (data.map flattenData)
        (statsPass1 (data.map flattenData)).2) p = some m ∧
      getV0 m v = (pvals (data.map flattenData) p).countP (fun w => w = v) := by
  have hne : occCount (data.map flattenData) p ≠ 0 := by
    simp only [MIN_PROPERTY_OCCURENCES] at h5
    omega
  refine ⟨bucketsOfProp (data.map flattenData) p, ?_, ?_⟩
  · rw [valueOccurencesOf_eq, if_pos ⟨(statsPass1_common _ p).mpr h5, hne⟩]
  · rw [bucketsOfProp, getV0_bucketFold v hv1 hv2]
    have hfun : (fun w => svz w v) = (fun w => decide (w = v)) :=
      funext (svz_eq_decide hv1 hv2)
    rw [hfun]
    simp [getV0, getV]

/-- The claim's stringified-equality collapse fails on the code: three
records with the number 5 and three with the string "5" produce two separate
buckets of three, not one bucket of six. -/
theorem C8_valueBuckets_counterexample :
    lookupStr (valueOccurencesOf
      (List.replicate 3 [("a", JVal.num 5)] ++ List.replicate 3 [("a", JVal.str "5")])
      (statsPass1 (List.replicate 3 [("a", JVal.num 5)] ++
        List.replicate 3 [("a", JVal.str "5")])).2) "a" =
      some [(JVal.num 5, 3), (JVal.str "5", 3)] ∧
    ((lookupStr (valueOccurencesOf
      (List.replicate 3 [("a", JVal.num 5)] ++ List.replicate 3 [("a", JVal.str "5")])
      (statsPass1 (List.replicate 3 [("a", JVal.num 5)] ++
        List.replicate 3 [("a", JVal.str "5")])).2) "a").getD []).length ≠ 1 := by
  constructor
  · decide
  · decide

/-- Concrete instantiation of `C8_valueBuckets_amended` at five records
`\x7ba: 1\x7d` and the primitive value 1, discharging all hypotheses. -/
theorem C8_valueBuckets_witness :
    ∃ m, lookupStr (valueOccurencesOf
        ((List.replicate 5 (JData.obj [("a", JData.scalar (JVal.num 1))])).map flattenData)
        (statsPass1 ((List.replicate 5 (JData.obj [("a", JData.scalar
          (JVal.num 1))])).map flattenData)).2) "a" = some m ∧
      getV0 m (JVal.num 1) =
        (pvals ((List.replicate 5 (JData.obj [("a", JData.scalar
          (JVal.num 1))])).map flattenData) "a").countP (fun w => w = JVal.num 1) := by
  apply C8_valueBuckets_amended _ "a" (JVal.num 1) (by decide) (by decide)
  have hflat : (List.replicate 5 (JData.obj [("a", JData.scalar (JVal.num 1))])).map
      flattenData = List.replicate 5 [("a", JVal.num 1)] := by
    simp [flattenData, flattenRec, flattenObjFields, mapSetStr, List.replicate]
  rw [hflat]
  decide

/-! ### Claim C9: the bounded numeric expression evaluator (spec-modelled) -/

theorem identChar_not_op {c : Char} (h : isIdentChar c = true) : isOpChar c = false := by
  by_cases h1 : c = '/'
  · subst h1; exact absurd h (by decide)
  · by_cases h2 : c = '*'
    · subst h2; exact absurd h (by decide)
    · simp [isOpChar, h1, h2]

theorem identChar_not_ws {c : Char} (h : isIdentChar c = true) : c.isWhitespace = false := by
  cases hw : c.isWhitespace with
  | false => rfl
  | true =>
    exfalso
    simp only [Char.isWhitespace, Bool.or_eq_true, decide_eq_true_eq] at hw
    rcases hw with ((h1 | h1) | h1) | h1 <;> (subst h1; exact absurd h (by decide))

theorem dropWhile_all_false {α : Type} (p : α → Bool) (l : List α)
    (h : ∀ c ∈ l, p c = false) : l.dropWhile p = l := by
  cases l with
  | nil => rfl
  | cons x t =>
    rw [List.dropWhile_cons, if_neg]
    rw [h x (List.mem_cons_self x t)]
    simp

theorem trimChars_of_no_ws (cs : List Char) (h : ∀ c ∈ cs, c.isWhitespace = false) :
    trimChars cs = cs := by
  rw [trimChars, dropWhile_all_false _ _ h, dropWhile_all_false, List.reverse_reverse]
  intro c hc
  exact h c (List.mem_reverse.mp hc)

theorem lStarts_paren_false {cs : List Char} (h1 : cs ≠ [])
    (h2 : ∀ c ∈ cs, isIdentChar c = true) : lStarts cs ['('] = false := by
  cases cs with
  | nil => exact absurd rfl h1
  | cons c0 r =>
    have hc0 := h2 c0 (List.mem_cons_self c0 r)
    rw [lStarts]
    have : (c0 = '(') = False := by
      simp only [eq_iff_iff, iff_false]
      intro he
      subst he
      exact absurd hc0 (by decide)
    simp [this]

theorem evalColRef_ident (name : String) (row : List (String × JVal))
    (h1 : name.data ≠ []) (h2 : ∀ c ∈ name.data, isIdentChar c = true) :
    evalColRef name.data row = Option.bind (lookupStr row name) coerceNum := by
  rw [evalColRef]
  have htrim : trimChars name.data = name.data :=
    trimChars_of_no_ws _ (fun c hc => identChar_not_ws (h2 c hc))
  rw [htrim]
  rw [lStarts_paren_false h1 h2]
  simp only [Bool.false_and, Bool.false_eq_true, if_false]
  rw [if_pos]
  · cases hl : lookupStr row name with
    | none =>
      show (match lookupStr row ⟨name.data⟩ with
        | none => none | some v => coerceNum v) = _
      rw [show (⟨name.data⟩ : String) = name from rfl, hl]
      rfl
    | some v =>
      show (match lookupStr row ⟨name.data⟩ with
        | none => none | some v => coerceNum v) = _
      rw [show (⟨name.data⟩ : String) = name from rfl, hl]
      rfl
  · rw [Bool.and_eq_true]
    refine ⟨by simpa using h1, ?_⟩
    rw [List.all_eq_true]
    exact fun c hc => h2 c hc

theorem evalColRef_paren (name : String) (row : List (String × JVal))
    (h1 : name.data ≠ []) (h2 : ∀ c ∈ name.data, isIdentChar c = true) :
    evalColRef ('(' :: (name.data ++ [')'])) row =
      Option.bind (lookupStr row name) coerceNum := by
  rw [evalColRef]
  have htrim : trimChars ('(' :: (name.data ++ [')'])) = '(' :: (name.data ++ [')']) := by
    refine trimChars_of_no_ws _ ?_
    intro c hc
    rcases List.mem_cons.mp hc with rfl | hc2
    · decide
    · rcases List.mem_append.mp hc2 with hc3 | hc3
      · exact identChar_not_ws (h2 c hc3)
      · rcases List.mem_singleton.mp hc3 with rfl
        decide
  rw [htrim]
  have hstarts : lStarts ('(' :: (name.data ++ [')'])) ['('] = true := by
    rw [lStarts_iff]
    exact ⟨name.data ++ [')'], rfl⟩
  have hends : lEnds ('(' :: (name.data ++ [')'])) [')'] = true := by
    rw [lEnds_iff]
    exact ⟨'(' :: name.data, by simp⟩
  rw [hstarts, hends]
  simp only [Bool.and_self, if_true, List.drop_one, List.tail_cons]
  rw [List.dropLast_concat]
  have htrim2 : trimChars name.data = name.data :=
    trimChars_of_no_ws _ (fun c hc => identChar_not_ws (h2 c hc))
  rw [htrim2, if_pos]
  · cases hl : lookupStr row name with
    | none =>
      show (match lookupStr row ⟨name.data⟩ with
        | none => none | some v => coerceNum v) = _
      rw [show (⟨name.data⟩ : String) = name from rfl, hl]
      rfl
    | some v =>
      show (match lookupStr row ⟨name.data⟩ with
        | none => none | some v => coerceNum v) = _
      rw [show (⟨name.data⟩ : String) = name from rfl, hl]
      rfl
  · rw [Bool.and_eq_true]
    refine ⟨by simpa using h1, ?_⟩
    rw [List.all_eq_true]
    exact fun c hc => h2 c hc

theorem filter_op_nil {cs : List Char} (h : ∀ c ∈ cs, isOpChar c = false) :
    cs.filter isOpChar = [] := by
  rw [List.filter_eq_nil_iff]
  intro a ha
  simp [h a ha]

theorem computeYValue_bare (name : String) (row : List (String × JVal))
    (h1 : name.data ≠ []) (h2 : ∀ c ∈ name.data, isIdentChar c = true) :
    computeYValue name row = Option.bind (lookupStr row name) coerceNum := by
  rw [computeYValue]
  rw [filter_op_nil (fun c hc => identChar_not_op (h2 c hc))]
  exact evalColRef_ident name row h1 h2

theorem computeYValue_paren (name : String) (row : List (String × JVal))
    (h1 : name.data ≠ []) (h2 : ∀ c ∈ name.data, isIdentChar c = true) :
    computeYValue ("(" ++ name ++ ")") row = Option.bind (lookupStr row name) coerceNum := by
  rw [computeYValue]
  have hdata : ("(" ++ name ++ ")").data = '(' :: (name.data ++ [')']) := by
    rw [String.data_append, String.data_append]
    rfl
  rw [hdata]
  rw [filter_op_nil]
  · exact evalColRef_paren name row h1 h2
  · intro c hc
    rcases List.mem_cons.mp hc with rfl | hc2
    · decide
    · rcases List.mem_append.mp hc2 with hc3 | hc3
      · exact identChar_not_op (h2 c hc3)
      · rcases List.mem_singleton.mp hc3 with rfl
        decide

theorem computeYValue_op (name : String) (row : List (String × JVal)) (op : Char)
    (lit : List Char) (h1 : name.data ≠ []) (h2 : ∀ c ∈ name.data, isIdentChar c = true)
    (hop : isOpChar op = true) (hlit : ∀ c ∈ lit, isOpChar c = false) :
    computeYValue ⟨name.data ++ op :: lit⟩ row =
      (match Option.bind (lookupStr row name) coerceNum, parseNumLit (trimChars lit) with
       | some v, some n =>
         if op = '/' then (if n = 0 then none else some (v / n)) else some (v * n)
       | _, _ => none) := by
  rw [computeYValue]
  have hdata : (String.mk (name.data ++ op :: lit)).data = name.data ++ op :: lit := rfl
  rw [hdata]
  have hfil : (name.data ++ op :: lit).filter isOpChar = [op] := by
    rw [List.filter_append, filter_op_nil (fun c hc => identChar_not_op (h2 c hc))]
    rw [List.filter_cons, if_pos (by simp [hop]), filter_op_nil hlit]
    rfl
  rw [hfil]
  have hsplit := takeWhile_dropWhile_split (fun c => !isOpChar c) name.data op lit
    (fun x hx => by simp [identChar_not_op (h2 x hx)])
    (by simp [hop])
  simp only [hsplit.1, hsplit.2, List.drop_one, List.tail_cons]
  rw [evalColRef_ident name row h1 h2]

theorem takeWhile_of_all {α : Type} (p : α → Bool) (l : List α)
    (h : ∀ x ∈ l, p x = true) : l.takeWhile p = l := by
  induction l with
  | nil => rfl
  | cons x t ih =>
    rw [List.takeWhile_cons, if_pos (h x (List.mem_cons_self x t))]
    rw [ih (fun y hy => h y (List.mem_cons.mpr (Or.inr hy)))]

/-- Inversion for the column-reference evaluator: a numeric result forces the
trimmed input to be a nonempty identifier, bare or wrapped in a single pair of
parentheses, that is present in the row and coercible to a number. -/
theorem evalColRef_some_inv {cs : List Char} {row : List (String × JVal)} {q : ℚ}
    (h : evalColRef cs row = some q) :
    ∃ (name : List Char) (v : JVal),
      name ≠ [] ∧ name.all isIdentChar = true ∧
      lookupStr row ⟨name⟩ = some v ∧ coerceNum v = some q ∧
      (trimChars cs = name ∨
        (lStarts (trimChars cs) ['('] = true ∧ lEnds (trimChars cs) [')'] = true ∧
         trimChars ((trimChars cs).drop 1).dropLast = name)) := by
  simp only [evalColRef] at h
  split at h
  · exact Option.noConfusion h
  · next nm heq =>
    split at h
    · exact Option.noConfusion h
    · next v hlook =>
      have hfacts : nm ≠ [] ∧ nm.all isIdentChar = true ∧
          (trimChars cs = nm ∨
            (lStarts (trimChars cs) ['('] = true ∧ lEnds (trimChars cs) [')'] = true ∧
             trimChars ((trimChars cs).drop 1).dropLast = nm)) := by
        split at heq
        · next hcond =>
          split at heq
          · next hin =>
            rw [Bool.and_eq_true, decide_eq_true_iff] at hin
            rw [Bool.and_eq_true] at hcond
            have he := Option.some.inj heq
            exact ⟨he ▸ hin.1, he ▸ hin.2, Or.inr ⟨hcond.1, hcond.2, he⟩⟩
          · exact Option.noConfusion heq
        · next hcond =>
          split at heq
          · next hin =>
            rw [Bool.and_eq_true, decide_eq_true_iff] at hin
            have he := Option.some.inj heq
            exact ⟨he ▸ hin.1, he ▸ hin.2, Or.inl he⟩
          · exact Option.noConfusion heq
      exact ⟨nm, v, hfacts.1, hfacts.2.1, hlook, h, hfacts.2.2⟩

/-- Inversion for the evaluator: a numeric result forces at most one operator
character, an operator-free prefix accepted by `evalColRef`, and — when an
operator is present — a parsable numeric literal on the right, with a zero
divisor excluded for division. -/
theorem computeYValue_some_inv {expr : String} {row : List (String × JVal)} {q : ℚ}
    (h : computeYValue expr row = some q) :
    (expr.data.filter isOpChar = [] ∧ evalColRef expr.data row = some q) ∨
    (∃ (op : Char) (v n : ℚ),
      expr.data.filter isOpChar = [op] ∧
      evalColRef (expr.data.takeWhile (fun c => !isOpChar c)) row = some v ∧
      parseNumLit (trimChars ((expr.data.dropWhile (fun c => !isOpChar c)).drop 1)) = some n ∧
      ((op = '/' ∧ n ≠ 0 ∧ q = v / n) ∨ (op = '*' ∧ q = v * n))) := by
  simp only [computeYValue] at h
  split at h
  · next hfil => exact Or.inl ⟨hfil, h⟩
  · next op hfil =>
    split at h
    · next v n hev hpn =>
      refine Or.inr ⟨op, v, n, hfil, hev, hpn, ?_⟩
      have hopc : isOpChar op = true := by
        have hmem : op ∈ expr.data.filter isOpChar := by
          rw [hfil]
          exact List.mem_singleton.mpr rfl
        exact (List.mem_filter.mp hmem).2
      by_cases hop : op = '/'
      · rw [if_pos hop] at h
        by_cases hn : n = 0
        · rw [if_pos hn] at h
          exact Option.noConfusion h
        · rw [if_neg hn] at h
          exact Or.inl ⟨hop, hn, (Option.some.inj h).symm⟩
      · rw [if_neg hop] at h
        have hstar : op = '*' := by
          have h2 : op = '/' ∨ op = '*' := by simpa [isOpChar] using hopc
          rcases h2 with h2 | h2
          · exact absurd h2 hop
          · exact h2
        exact Or.inr ⟨hstar, (Option.some.inj h).symm⟩
    · exact Option.noConfusion h
  · exact Option.noConfusion h

/-- C9 (spec-modelled): the evaluator returns the row value, coerced to a
number, for a bare or parenthesized column reference; with a single `/` or
`*` it applies the parsed numeric literal, a zero divisor giving null; a
missing column gives null; the spec's worked examples hold, including
that function-call syntax is rejected; and — the converse — for EVERY
expression string and row, a numeric result is returned ONLY when the
operator-free prefix (the whole expression when no operator occurs) trims to
a nonempty identifier, bare or parenthesized, that is present in the row and
coercible, with at most one operator followed by a parsable numeric literal
and a zero divisor excluded — so function calls, multiple operators and
non-literal right-hand operands all yield null.  The model is a total
function, so it never throws. -/
theorem C9_computeYValue :
    (∀ (name : String) (row : List (String × JVal)),
      name.data ≠ [] → (∀ c ∈ name.data, isIdentChar c = true) →
      computeYValue name row = Option.bind (lookupStr row name) coerceNum ∧
      computeYValue ("(" ++ name ++ ")") row = Option.bind (lookupStr row name) coerceNum) ∧
    (∀ (name : String) (row : List (String × JVal)) (lit : List Char) (q n : ℚ),
      name.data ≠ [] → (∀ c ∈ name.data, isIdentChar c = true) →
      (∀ c ∈ lit, isOpChar c = false) →
      Option.bind (lookupStr row name) coerceNum = some q →
      parseNumLit (trimChars lit) = some n →
      computeYValue ⟨name.data ++ '/' :: lit⟩ row =
        (if n = 0 then none else some (q / n)) ∧
      computeYValue ⟨name.data ++ '*' :: lit⟩ row = some (q * n)) ∧
    (∀ (name : String) (row : List (String × JVal)) (lit : List Char),
      name.data ≠ [] → (∀ c ∈ name.data, isIdentChar c = true) →
      (∀ c ∈ lit, isOpChar c = false) →
      lookupStr row name = none →
      computeYValue name row = none ∧
      computeYValue ⟨name.data ++ '/' :: lit⟩ row = none) ∧
    (computeYValue "(Duration)/1e6" [("Duration", JVal.num 5000000)] = some 5 ∧
     computeYValue "Duration / 0" [("Duration", JVal.num 5000)] = none ∧
     computeYValue "count()" [] = none ∧
     computeYValue "toUnixTimestamp(Timestamp)" [] = none) ∧
    (∀ (expr : String) (row : List (String × JVal)) (q : ℚ),
      computeYValue expr row = some q →
      ∃ (name : List Char) (v : JVal) (c : ℚ),
        name ≠ [] ∧ name.all isIdentChar = true ∧
        lookupStr row ⟨name⟩ = some v ∧ coerceNum v = some c ∧
        (trimChars (expr.data.takeWhile (fun ch => !isOpChar ch)) = name ∨
          (lStarts (trimChars (expr.data.takeWhile (fun ch => !isOpChar ch))) ['('] = true ∧
           lEnds (trimChars (expr.data.takeWhile (fun ch => !isOpChar ch))) [')'] = true ∧
           trimChars ((trimChars
             (expr.data.takeWhile (fun ch => !isOpChar ch))).drop 1).dropLast = name)) ∧
        ((expr.data.filter isOpChar = [] ∧ q = c) ∨
          (∃ (op : Char) (n : ℚ),
            expr.data.filter isOpChar = [op] ∧
            parseNumLit
              (trimChars ((expr.data.dropWhile (fun ch => !isOpChar ch)).drop 1)) = some n ∧
            ((op = '/' ∧ n ≠ 0 ∧ q = c / n) ∨ (op = '*' ∧ q = c * n))))) := by
  refine ⟨?_, ?_, ?_, ⟨?_, ?_, ?_, ?_⟩, ?_⟩
  · intro name row h1 h2
    exact ⟨computeYValue_bare name row h1 h2, computeYValue_paren name row h1 h2⟩
  · intro name row lit q n h1 h2 hlit hlook hnum
    constructor
    · rw [computeYValue_op name row '/' lit h1 h2 (by decide) hlit, hlook, hnum]
      rfl
    · rw [computeYValue_op name row '*' lit h1 h2 (by decide) hlit, hlook, hnum]
      rfl
  · intro name row lit h1 h2 hlit hlook
    constructor
    · rw [computeYValue_bare name row h1 h2, hlook]
      rfl
    · rw [computeYValue_op name row '/' lit h1 h2 (by decide) hlit, hlook]
      rfl
  · with_unfolding_all decide
  · with_unfolding_all decide
  · decide
  · decide
  · intro expr row q h
    rcases computeYValue_some_inv h with ⟨hfil, hev⟩ | ⟨op, v0, n, hfil, hev, hpn, hres⟩
    · have htw : expr.data.takeWhile (fun ch => !isOpChar ch) = expr.data := by
        apply takeWhile_of_all
        intro x hx
        have hx2 : ¬ isOpChar x = true := by
          have := List.filter_eq_nil_iff.mp hfil x hx
          simpa using this
        simp [Bool.eq_false_iff.mpr hx2]
      obtain ⟨name, v, hne, hall, hlook, hco, hshape⟩ := evalColRef_some_inv hev
      exact ⟨name, v, q, hne, hall, hlook, hco, by rw [htw]; exact hshape,
        Or.inl ⟨hfil, rfl⟩⟩
    · obtain ⟨name, v, hne, hall, hlook, hco, hshape⟩ := evalColRef_some_inv hev
      exact ⟨name, v, v0, hne, hall, hlook, hco, hshape,
        Or.inr ⟨op, n, hfil, hpn, hres⟩⟩

/-- Concrete instantiation of `C9_computeYValue`, discharging its
hypotheses: a parenthesized reference evaluates to the row value, a division
by the literal 2 halves it, a missing column gives null, and the converse
clause, applied to the bare reference evaluating to 7, recovers the
identifier present in the row. -/
theorem C9_computeYValue_witness :
    (computeYValue "(Duration)" [("Duration", JVal.num 7)] = some 7 ∧
    computeYValue "Duration/2" [("Duration", JVal.num 7)] = some (7 / 2) ∧
    computeYValue "Duration" [] = none) ∧
    (∃ (name : List Char) (v : JVal),
      name ≠ [] ∧ lookupStr [("Duration", JVal.num 7)] ⟨name⟩ = some v ∧
      coerceNum v = some 7) := by
  refine ⟨⟨?_, ?_, ?_⟩, ?_⟩
  · have h := (C9_computeYValue.1 "Duration" [("Duration", JVal.num 7)]
      (by decide) (by decide)).2
    have hkey : computeYValue "(Duration)" [("Duration", JVal.num 7)] =
        computeYValue ("(" ++ "Duration" ++ ")") [("Duration", JVal.num 7)] := rfl
    rw [hkey, h]
    rfl
  · have h := (C9_computeYValue.2.1 "Duration" [("Duration", JVal.num 7)] ['2'] 7 2
      (by decide) (by decide) (by decide) (by rfl) (by with_unfolding_all decide)).1
    have hkey : computeYValue "Duration/2" [("Duration", JVal.num 7)] =
        computeYValue ⟨"Duration".data ++ '/' :: ['2']⟩ [("Duration", JVal.num 7)] := rfl
    rw [hkey, h, if_neg (by norm_num)]
  · exact (C9_computeYValue.2.2.1 "Duration" [] ['2']
      (by decide) (by decide) (by decide) rfl).1
  · have hs : computeYValue "Duration" [("Duration", JVal.num 7)] = some 7 := by
      with_unfolding_all decide
    obtain ⟨name, v, c, hne, hall, hlook, hco, hshape, hcase⟩ :=
      C9_computeYValue.2.2.2.2 "Duration" [("Duration", JVal.num 7)] 7 hs
    rcases hcase with ⟨hfil2, hqc⟩ | ⟨op, n, hfil2, hpn2, hres2⟩
    · exact ⟨name, v, hne, hlook, hqc.symm ▸ hco⟩
    · have hnil : ("Duration".data.filter isOpChar) = [] := by decide
      rw [hnil] at hfil2
      exact List.noConfusion hfil2
